import Mathlib

/-!
Verification development for the ScholarLens document-structuring core
(`src/utils/chunking.py`, `src/tools/pdf_parser.py`, `src/tools/text_cleaner.py`).

The Python code is shallowly embedded: strings are `List Char`, Python `int`
is `Int` (or `Nat` where the source value is provably non-negative), and the
one unbounded `while` loop (`TextChunker.chunk_by_tokens`) is embedded with an
explicit fuel parameter returning `Option` — `none` means the loop did not
finish within the given fuel, and a result that is `none` for *every* fuel is a
non-terminating run of the source loop.

Float arithmetic in the source is restricted to `int(x * 0.75)`,
`int(x * 1.33)` and ratio comparisons against `0.5` / `0.7` / `0.4`; for the
argument ranges that occur these agree exactly with the rational arithmetic
used here (0.75 is exact in binary; the other comparisons are between
rationals whose distance from the decimal constant exceeds any rounding
error at the relevant magnitudes), so they are embedded as exact integer
arithmetic.
-/

namespace ScholarLens

/-- The whitespace set of Python `str.split` / `str.strip` / regex `\s`
(CPython uses one Unicode whitespace table for all three). -/
def pyIsSpace (c : Char) : Bool :=
  let n := c.toNat
  (0x09 ≤ n ∧ n ≤ 0x0D) ∨ (0x1C ≤ n ∧ n ≤ 0x1F) ∨ n = 0x20 ∨
    n = 0x85 ∨ n = 0xA0 ∨ n = 0x1680 ∨ (0x2000 ≤ n ∧ n ≤ 0x200A) ∨
    n = 0x2028 ∨ n = 0x2029 ∨ n = 0x202F ∨ n = 0x205F ∨ n = 0x3000

/-- ASCII decimal digit (`str.isdigit` restricted to the ASCII range the
embedded inputs use). -/
def asciiIsDigit (c : Char) : Bool := '0' ≤ c ∧ c ≤ '9'

/-- ASCII uppercase letter. -/
def asciiIsUpper (c : Char) : Bool := 'A' ≤ c ∧ c ≤ 'Z'

/-- ASCII lowercase letter. -/
def asciiIsLower (c : Char) : Bool := 'a' ≤ c ∧ c ≤ 'z'

/-- ASCII letter (`str.isalpha` on the ASCII range). -/
def asciiIsAlpha (c : Char) : Bool := asciiIsUpper c ∨ asciiIsLower c

/-- ASCII alphanumeric (`str.isalnum` on the ASCII range). -/
def asciiIsAlnum (c : Char) : Bool := asciiIsAlpha c ∨ asciiIsDigit c

/-- Regex `\w` (ASCII range). -/
def isWordChar (c : Char) : Bool := asciiIsAlnum c ∨ c = '_'

/-- ASCII `str.lower` on a single character. -/
def asciiToLower (c : Char) : Char :=
  if asciiIsUpper c then Char.ofNat (c.toNat + 32) else c

/-- Python `str.lower` (ASCII fragment). -/
def pyLower (l : List Char) : List Char := l.map asciiToLower

/-- Python `str.lstrip()`. -/
def pyLStrip (l : List Char) : List Char := l.dropWhile pyIsSpace

/-- Python `str.strip()`: drop whitespace from both ends. -/
def pyStrip (l : List Char) : List Char :=
  ((l.dropWhile pyIsSpace).reverse.dropWhile pyIsSpace).reverse

/-- Single pass behind `pySplit`; `cur` is the current word so far, reversed.
(Structurally recursive so that concrete instances compute.) -/
def pySplitGo (cur : List Char) : List Char → List (List Char)
  | [] => if cur = [] then [] else [cur.reverse]
  | c :: r =>
    if pyIsSpace c then
      if cur = [] then pySplitGo [] r else cur.reverse :: pySplitGo [] r
    else pySplitGo (c :: cur) r

/-- Python `str.split()` with no argument: split on whitespace runs,
dropping empty pieces. -/
def pySplit (l : List Char) : List (List Char) := pySplitGo [] l

lemma pySplitGo_word (r : List Char) :
    ∀ cur : List Char, cur ≠ [] →
      pySplitGo cur r = (cur.reverse ++ r.takeWhile (fun x => ¬ pyIsSpace x)) ::
        pySplitGo [] (r.dropWhile (fun x => ¬ pyIsSpace x)) := by
  induction r with
  | nil => intro cur hc; simp [pySplitGo, hc]
  | cons c r ih =>
    intro cur hc
    by_cases hsp : pyIsSpace c
    · simp [pySplitGo, hsp, hc, List.takeWhile, List.dropWhile]
    · rw [pySplitGo]
      simp only [hsp, if_false]
      rw [ih (c :: cur) (by simp), List.takeWhile, List.dropWhile]
      simp [hsp]

/-- The defining equations of Python whitespace splitting. -/
lemma pySplit_cons (c : Char) (r : List Char) :
    pySplit (c :: r) =
      if pyIsSpace c then pySplit r
      else (c :: r.takeWhile (fun x => ¬ pyIsSpace x)) ::
        pySplit (r.dropWhile (fun x => ¬ pyIsSpace x)) := by
  by_cases hsp : pyIsSpace c
  · simp [pySplit, pySplitGo, hsp]
  · rw [pySplit, pySplitGo]
    simp only [hsp, if_false]
    rw [pySplitGo_word r [c] (by simp)]
    simp [pySplit]

/-- Python `str.split('\n')`: split on single newline characters, keeping
empty pieces (so the result is always non-empty). -/
def splitNl : List Char → List (List Char)
  | [] => [[]]
  | c :: r =>
    if c = '\n' then [] :: splitNl r
    else
      match splitNl r with
      | [] => [[c]]
      | w :: ws => (c :: w) :: ws

/-- Python `sep.join(ws)`. -/
def joinWith (sep : List Char) : List (List Char) → List Char
  | [] => []
  | [w] => w
  | w :: ws => w ++ sep ++ joinWith sep ws

lemma joinWith_cons_cons (sep w w' : List Char) (ws : List (List Char)) :
    joinWith sep (w :: w' :: ws) = w ++ sep ++ joinWith sep (w' :: ws) := rfl

/-- `'\n'.join`. -/
def joinNl (ws : List (List Char)) : List Char := joinWith ['\n'] ws

/-- `' '.join`. -/
def joinSpace (ws : List (List Char)) : List Char := joinWith [' '] ws

/-- `l` starts with `p` (string prefix test, spelled out). -/
def leadsWith : List Char → List Char → Bool
  | _, [] => true
  | [], _ :: _ => false
  | c :: r, p :: ps => c = p && leadsWith r ps

/-- Python substring containment (`needle in haystack`). -/
def containsTok (haystack needle : List Char) : Bool :=
  match haystack with
  | [] => needle = []
  | _ :: r => leadsWith haystack needle || containsTok r needle

/-- Normalize one Python slice index against a list length. -/
def pyIdx (n : Nat) (i : Int) : Nat :=
  if i < 0 then (i + n).toNat else min i.toNat n

/-- Python slice `l[a:b]` (negative indices wrap, everything clamps). -/
def pySlice {α : Type} (l : List α) (a b : Int) : List α :=
  (l.take (pyIdx l.length b)).drop (pyIdx l.length a)

/-! ## `src/utils/chunking.py` -/

/-- `chunking.TextChunk`. The Python field `section` is called
`sectionName` here (`section` is reserved in Lean). -/
structure TextChunk where
  content : List Char
  chunk_id : Nat
  start_pos : Int
  end_pos : Int
  sectionName : Option (List Char) := none
  token_count : Option Nat := none
deriving DecidableEq, Repr

/-- `TextChunker.estimate_tokens`: `int(len(text.split()) * 1.33)`.
`1.33` is not exactly representable; for all realistic word counts the float
product truncates to `⌊133·w/100⌋`, which is what is used here. -/
def estimate_tokens (text : List Char) : Nat :=
  133 * (pySplit text).length / 100

/-- The chunk built by one iteration of the `chunk_by_tokens` loop:
`words[start_idx:end_idx]` joined with single spaces, with approximate
character offsets reconstructed from cumulative word lengths. -/
def mkChunk (words : List (List Char)) (start_idx end_idx : Int)
    (chunk_id : Nat) : TextChunk :=
  let chunk_text := joinSpace (pySlice words start_idx end_idx)
  let start_pos : Nat :=
    ((pySlice words 0 start_idx).map (fun w => w.length + 1)).sum
  { content := chunk_text, chunk_id := chunk_id,
    start_pos := (start_pos : Int),
    end_pos := (start_pos : Int) + chunk_text.length,
    token_count := some (estimate_tokens chunk_text) }

/-- One fuelled run of the `while start_idx < len(words)` loop of
`TextChunker.chunk_by_tokens`.  `none` = fuel exhausted before the loop
finished. -/
def chunkLoop (words : List (List Char)) (wpc ow : Nat) :
    Nat → Int → Nat → List TextChunk → Option (List TextChunk)
  | 0, _, _, _ => none
  | fuel + 1, start_idx, chunk_id, acc =>
    if start_idx < (words.length : Int) then
      let end_idx : Int := min (start_idx + wpc) words.length
      let acc' := acc ++ [mkChunk words start_idx end_idx chunk_id]
      let start' := end_idx - ow
      if start' ≥ (words.length : Int) - ow then some acc'
      else chunkLoop words wpc ow fuel start' (chunk_id + 1) acc'
    else some acc

/-- `TextChunker.chunk_by_tokens` (fuelled).
`words_per_chunk = int(chunk_size * 0.75)` and
`overlap_words = int(overlap * 0.75)` are exact (`0.75 = 3/4` in binary). -/
def chunk_by_tokens (chunk_size overlap : Nat) (fuel : Nat)
    (text : List Char) : Option (List TextChunk) :=
  chunkLoop (pySplit text) (3 * chunk_size / 4) (3 * overlap / 4) fuel 0 0 []

/-- A Python section dictionary as consumed by `chunk_by_sections`
(`.get('title')`, `.get('start')`, `.get('end')`). -/
structure PySection where
  title : Option (List Char) := none
  start : Option Int := none
  stop : Option Int := none
deriving DecidableEq, Repr

/-- The per-section body of the `for section in sections` loop of
`TextChunker.chunk_by_sections`. -/
def sectionChunks (chunk_size overlap fuel : Nat) (text : List Char) :
    List PySection → Nat → Option (List TextChunk)
  | [], _ => some []
  | s :: rest, chunk_id =>
    let section_title := s.title.getD ("Unknown".data)
    let start := s.start.getD 0
    let stop := s.stop.getD (text.length : Int)
    let section_text := pySlice text start stop
    let section_tokens := estimate_tokens section_text
    if section_tokens ≤ chunk_size then
      match sectionChunks chunk_size overlap fuel text rest (chunk_id + 1) with
      | none => none
      | some cs =>
        some ({ content := section_text, chunk_id := chunk_id,
                start_pos := start, end_pos := stop,
                sectionName := some section_title,
                token_count := some section_tokens } :: cs)
    else
      match chunk_by_tokens chunk_size overlap fuel section_text with
      | none => none
      | some subs =>
        match sectionChunks chunk_size overlap fuel text rest
            (chunk_id + subs.length) with
        | none => none
        | some cs =>
          some ((subs.enum.map fun p =>
            { content := p.2.content,
              chunk_id := chunk_id + p.1,
              start_pos := start + p.2.start_pos,
              end_pos := start + p.2.end_pos,
              sectionName := some section_title,
              token_count := p.2.token_count }) ++ cs)

/-- `TextChunker.chunk_by_sections` (fuelled): `if not sections:` falls back
to `chunk_by_tokens`; otherwise each section becomes one chunk when its
estimated tokens fit the budget and is sub-chunked otherwise.  Python
renumbers `chunk_id` densely across the whole call; in the sub-chunk branch
the fresh ids coincide with `chunk_id + sub.chunk_id` because sub-chunk ids
are dense from zero. -/
def chunk_by_sections (chunk_size overlap : Nat) (fuel : Nat)
    (text : List Char) (sections : Option (List PySection)) :
    Option (List TextChunk) :=
  match sections with
  | none => chunk_by_tokens chunk_size overlap fuel text
  | some [] => chunk_by_tokens chunk_size overlap fuel text
  | some ss => sectionChunks chunk_size overlap fuel text ss 0

/-! ## Chunker lemmas -/

/-- Words produced by `pySplit` are non-empty and whitespace-free. -/
lemma pySplit_wf (l : List Char) :
    ∀ x ∈ pySplit l, x ≠ [] ∧ ∀ c ∈ x, pyIsSpace c = false := by
  suffices H : ∀ n (l : List Char), l.length ≤ n →
      ∀ x ∈ pySplit l, x ≠ [] ∧ ∀ c ∈ x, pyIsSpace c = false from
    H l.length l le_rfl
  intro n
  induction n with
  | zero =>
    intro l hl x hx
    obtain rfl : l = [] := List.length_eq_zero.mp (Nat.le_zero.mp hl)
    simp [pySplit, pySplitGo] at hx
  | succ n ih =>
    intro l hl x hx
    cases l with
    | nil => simp [pySplit, pySplitGo] at hx
    | cons c r =>
      rw [pySplit_cons] at hx
      by_cases hsp : pyIsSpace c
      · rw [if_pos hsp] at hx
        exact ih r (by simp at hl; omega) x hx
      · rw [if_neg hsp] at hx
        rcases List.mem_cons.mp hx with h | h
        · subst h
          refine ⟨by simp, ?_⟩
          intro d hd
          rcases List.mem_cons.mp hd with h | h
          · subst h; simpa using hsp
          · have := List.mem_takeWhile_imp h
            simpa using this
        · refine ih _ ?_ x h
          exact le_trans (List.dropWhile_sublist _).length_le
            (by simp at hl; omega)

/-- `takeWhile`/`dropWhile` of `nonspace-word ++ ' ' :: rest`. -/
lemma takeWhile_word_append (r rest : List Char)
    (hr : ∀ c ∈ r, pyIsSpace c = false) :
    (r ++ ' ' :: rest).takeWhile (fun x => ¬ pyIsSpace x) = r ∧
    (r ++ ' ' :: rest).dropWhile (fun x => ¬ pyIsSpace x) = ' ' :: rest := by
  induction r with
  | nil => constructor <;> simp [List.takeWhile, List.dropWhile, pyIsSpace]
  | cons c r ih =>
    have hc : pyIsSpace c = false := hr c (by simp)
    have ih' := ih (fun d hd => hr d (by simp [hd]))
    constructor
    · simpa [List.takeWhile, hc] using ih'.1
    · simpa [List.dropWhile, hc] using ih'.2

/-- `pySplit` of a single non-empty whitespace-free word. -/
lemma pySplit_single (w : List Char) (hne : w ≠ [])
    (hw : ∀ c ∈ w, pyIsSpace c = false) : pySplit w = [w] := by
  match w, hne with
  | c :: r, _ =>
    have hc : pyIsSpace c = false := hw c (by simp)
    rw [pySplit_cons]
    simp only [hc, if_false]
    have ht : r.takeWhile (fun x => ¬ pyIsSpace x) = r :=
      List.takeWhile_eq_self_iff.mpr (by
        intro x hx; simp [hw x (by simp [hx])])
    have hd : r.dropWhile (fun x => ¬ pyIsSpace x) = [] :=
      List.dropWhile_eq_nil_iff.mpr (by
        intro x hx; simp [hw x (by simp [hx])])
    rw [ht, hd]
    simp [pySplit, pySplitGo]

/-- Splitting the space-join of non-empty whitespace-free words
recovers the words. -/
lemma pySplit_joinSpace (ws : List (List Char))
    (h : ∀ x ∈ ws, x ≠ [] ∧ ∀ c ∈ x, pyIsSpace c = false) :
    pySplit (joinSpace ws) = ws := by
  induction ws with
  | nil => simp [joinSpace, joinWith, pySplit, pySplitGo]
  | cons w ws ih =>
    cases ws with
    | nil =>
      have hw := h w (by simp)
      simpa [joinSpace, joinWith] using pySplit_single w hw.1 hw.2
    | cons w' ws' =>
      have hw := h w (by simp)
      have hj : joinSpace (w :: w' :: ws') = w ++ ' ' :: joinSpace (w' :: ws') := by
        show joinWith [' '] _ = _
        rw [joinWith_cons_cons]
        simp [joinSpace]
      rw [hj]
      obtain ⟨c, r, rfl⟩ : ∃ c r, w = c :: r := by
        cases w with
        | nil => exact absurd rfl hw.1
        | cons c r => exact ⟨c, r, rfl⟩
      have hc : pyIsSpace c = false := hw.2 c (by simp)
      have hr : ∀ d ∈ r, pyIsSpace d = false := fun d hd => hw.2 d (by simp [hd])
      have htw := takeWhile_word_append r (joinSpace (w' :: ws')) hr
      rw [List.cons_append, pySplit_cons]
      simp only [hc, if_false]
      rw [htw.1, htw.2]
      have hsp : pySplit (' ' :: joinSpace (w' :: ws')) = pySplit (joinSpace (w' :: ws')) := by
        rw [pySplit_cons]; simp [pyIsSpace]
      rw [hsp, ih (fun x hx => h x (by simp [hx]))]
      simp

/-- `pySlice` with in-range natural bounds is `take`-then-`drop`. -/
lemma pySlice_nat {α : Type} (l : List α) (a b : Nat)
    (ha : a ≤ l.length) (hb : b ≤ l.length) :
    pySlice l (a : Int) (b : Int) = (l.take b).drop a := by
  have h1 : pyIdx l.length (a : Int) = a := by
    simp only [pyIdx]
    rw [if_neg (by omega : ¬ ((a : Int) < 0))]
    omega
  have h2 : pyIdx l.length (b : Int) = b := by
    simp only [pyIdx]
    rw [if_neg (by omega : ¬ ((b : Int) < 0))]
    omega
  simp [pySlice, h1, h2]

/-- If `overlap_words ≥ words_per_chunk` and the window never reaches the end
of the word list, the `chunk_by_tokens` loop runs forever (returns `none` at
every fuel): the progress guard `start_idx >= len(words) - overlap_words`
only fires when the previous chunk already reached the end. -/
lemma chunkLoop_stalls (words : List (List Char)) (wpc ow : Nat)
    (hwo : wpc ≤ ow) :
    ∀ fuel (start_idx : Int) chunk_id acc,
      start_idx + wpc < words.length →
      chunkLoop words wpc ow fuel start_idx chunk_id acc = none := by
  intro fuel
  induction fuel with
  | zero => intro s i a _; rfl
  | succ fuel ih =>
    intro s i a hlt
    have hs : s < (words.length : Int) := by
      have : (0 : Int) ≤ wpc := Int.ofNat_nonneg wpc
      omega
    have hmin : min (s + wpc) (words.length : Int) = s + wpc := by omega
    rw [chunkLoop]
    simp only [if_pos hs, hmin]
    have hnb : ¬ (s + wpc - ow ≥ (words.length : Int) - ow) := by omega
    simp only [ge_iff_le, if_neg (by omega : ¬ ((words.length : Int) - ow ≤ s + wpc - ow))]
    exact ih (s + wpc - ow) (i + 1) _ (by omega)

/-- Concatenate chunk word lists, dropping the leading `o`-word overlap of
every chunk after the first. -/
def dropOverlapConcat (o : Nat) : List (List (List Char)) → List (List Char)
  | [] => []
  | x :: xs => x ++ (xs.map (List.drop o)).flatten

/-- Main run lemma for the `chunk_by_tokens` loop: when
`overlap_words < words_per_chunk`, fuel `n - start` suffices, at least one
chunk is emitted, and the emitted chunks cover `words.drop start` exactly
(once each later chunk's leading overlap is removed). -/
lemma chunkLoop_covers (words : List (List Char)) (wpc ow : Nat)
    (how : ow < wpc)
    (hwords : ∀ x ∈ words, x ≠ [] ∧ ∀ c ∈ x, pyIsSpace c = false) :
    ∀ fuel (start chunk_id : Nat) acc, start < words.length →
      words.length ≤ start + fuel →
      ∃ cs, chunkLoop words wpc ow fuel (start : Int) chunk_id acc
              = some (acc ++ cs) ∧
        cs ≠ [] ∧
        dropOverlapConcat ow (cs.map fun c => pySplit c.content)
          = words.drop start ∧
        ((cs.map fun c => pySplit c.content).map (List.drop ow)).flatten
          = words.drop (start + ow) := by
  intro fuel
  induction fuel with
  | zero => intro s i a h1 h2; omega
  | succ fuel ih =>
    intro s i a h1 h2
    have hs : (s : Int) < (words.length : Int) := by exact_mod_cast h1
    set n := words.length with hn
    have hmin : min ((s : Int) + wpc) (n : Int) = ((min (s + wpc) n : Nat) : Int) := by
      push_cast; omega
    have hsplit : pySplit (mkChunk words (s : Int)
        (min ((s : Int) + wpc) (n : Int)) i).content
        = (words.take (min (s + wpc) n)).drop s := by
      have hslice : pySlice words (s : Int) (min ((s : Int) + wpc) (n : Int))
          = (words.take (min (s + wpc) n)).drop s := by
        rw [hmin]
        exact pySlice_nat words s (min (s + wpc) n) (le_of_lt h1) (by omega)
      show pySplit (joinSpace (pySlice words _ _)) = _
      rw [hslice]
      exact pySplit_joinSpace _ (fun x hx =>
        hwords x (List.mem_of_mem_take (List.mem_of_mem_drop hx)))
    rw [chunkLoop]
    simp only [if_pos hs]
    by_cases hbreak : min ((s : Int) + wpc) (n : Int) - ow ≥ (n : Int) - ow
    · -- the previous chunk reached the end: emit it and stop
      have hend : n ≤ s + wpc := by
        have : ¬ ((s : Int) + wpc < (n : Int)) := by omega
        omega
      have hmin2 : min (s + wpc) n = n := by omega
      rw [if_pos hbreak]
      refine ⟨[mkChunk words (s : Int) (min ((s : Int) + wpc) (n : Int)) i],
        rfl, by simp, ?_, ?_⟩
      · simp only [List.map_cons, List.map_nil, dropOverlapConcat, hsplit, hmin2]
        rw [hn, List.take_length]
        simp
      · simp only [List.map_cons, List.map_nil, hsplit, hmin2]
        rw [hn, List.take_length]
        simp only [List.flatten, List.flatten_nil, List.append_nil]
        rw [List.drop_drop]
    · -- forward progress: recurse from `end_idx - overlap_words`
      have hlt : s + wpc < n := by
        by_contra hcon
        exact hbreak (by omega)
      have hmin2 : min (s + wpc) n = s + wpc := by omega
      have hcast : min ((s : Int) + wpc) (n : Int) - ow
          = ((s + wpc - ow : Nat) : Int) := by
        rw [hmin, hmin2]; push_cast; omega
      rw [if_neg hbreak, hcast]
      obtain ⟨cs, hrun, hne, hcov, hdrop⟩ :=
        ih (s + wpc - ow) (i + 1)
          (a ++ [mkChunk words (s : Int) (min ((s : Int) + wpc) (n : Int)) i])
          (by omega) (by omega)
      have harith : s + wpc - ow + ow = s + wpc := by omega
      rw [harith] at hdrop
      refine ⟨mkChunk words (s : Int) (min ((s : Int) + wpc) (n : Int)) i :: cs,
        ?_, by simp, ?_, ?_⟩
      · rw [hrun]
        simp
      · simp only [List.map_cons, dropOverlapConcat, hsplit, hmin2]
        have hx : (words.take (s + wpc)).drop s = (words.drop s).take wpc := by
          rw [List.drop_take]; congr 1; omega
        rw [hx, hdrop]
        have hsplit2 : words.drop (s + wpc) = (words.drop s).drop wpc := by
          rw [List.drop_drop]
        rw [hsplit2]
        exact List.take_append_drop wpc (words.drop s)
      · simp only [List.map_cons, List.flatten, hsplit, hmin2]
        rw [hdrop]
        have hx : List.drop ow ((words.take (s + wpc)).drop s)
            = (words.drop (s + ow)).take (wpc - ow) := by
          rw [List.drop_take, List.drop_take, List.drop_drop]
          congr 1
          omega
        rw [hx]
        have hy : words.drop (s + wpc) = ((words.drop (s + ow)).drop (wpc - ow)) := by
          rw [List.drop_drop]; congr 1; omega
        rw [hy]
        exact List.take_append_drop (wpc - ow) (words.drop (s + ow))

/-- A 76-word text (75 = `int(100*0.75)` words is the window size for
`chunk_size = 100`, so the first window does not reach the end). -/
def degenerateText : List Char := joinSpace (List.replicate 76 ['a'])

lemma replicate_a_wf (k : Nat) :
    ∀ x ∈ List.replicate k ['a'], x ≠ [] ∧ ∀ c ∈ x, pyIsSpace c = false := by
  intro x hx
  rw [List.eq_of_mem_replicate hx]
  refine ⟨by simp, ?_⟩
  intro c hc
  simp only [List.mem_singleton] at hc
  subst hc
  decide

lemma pySplit_degenerateText : pySplit degenerateText = List.replicate 76 ['a'] :=
  pySplit_joinSpace _ (replicate_a_wf 76)

/-- Claim C1.  The spec asserts `chunk_by_tokens` terminates for every
configuration, in particular `chunk_size = 100, overlap = 150`.  The code
violates this: on a 76-word text the loop's `start_idx` decreases without
bound (the guard `start_idx >= len(words) - overlap_words` only fires when
the previous window already reached the end of the text), so no amount of
fuel makes the loop finish. -/
theorem chunk_by_tokens_degenerate_diverges :
    ¬ ∃ fuel, (chunk_by_tokens 100 150 fuel degenerateText).isSome = true := by
  rintro ⟨fuel, hsome⟩
  rw [chunk_by_tokens] at hsome
  rw [pySplit_degenerateText] at hsome
  rw [chunkLoop_stalls (List.replicate 76 ['a']) (3 * 100 / 4) (3 * 150 / 4)
    (by norm_num) fuel 0 0 [] (by simp)] at hsome
  simp at hsome

/-- A 6-word text for the `chunk_size = 5, overlap = 4` counterexample. -/
def sixWordText : List Char := joinSpace (List.replicate 6 ['a'])

/-- Claim C2 as stated is false: `overlap = 4 < 5 = chunk_size` (both
positive) and a six-word text, yet the loop never terminates, because
`int(4*0.75) = 3 = int(5*0.75)` — the derived word counts collide, so the
window never advances. -/
theorem chunk_by_tokens_coverage_cex :
    (4 < 5 ∧ pySplit sixWordText ≠ []) ∧
    ¬ ∃ fuel, (chunk_by_tokens 5 4 fuel sixWordText).isSome = true := by
  have hsplit : pySplit sixWordText = List.replicate 6 ['a'] :=
    pySplit_joinSpace _ (replicate_a_wf 6)
  refine ⟨⟨by norm_num, by rw [hsplit]; simp⟩, ?_⟩
  rintro ⟨fuel, hsome⟩
  rw [chunk_by_tokens, hsplit] at hsome
  rw [chunkLoop_stalls (List.replicate 6 ['a']) (3 * 5 / 4) (3 * 4 / 4)
    (by norm_num) fuel 0 0 [] (by simp)] at hsome
  simp at hsome

/-- Claim C2 (amended): under the (floored) word-count condition
`int(overlap*0.75) < int(chunk_size*0.75)`, chunking any text with at least
one word terminates within `len(words)` loop iterations, emits at least one
chunk, and concatenating the chunks' word sequences — dropping the leading
`overlap_words` words of every chunk after the first — gives back exactly
the word sequence of the text. -/
theorem chunk_by_tokens_coverage (chunk_size overlap : Nat) (text : List Char)
    (hvalid : 3 * overlap / 4 < 3 * chunk_size / 4)
    (hne : pySplit text ≠ []) :
    ∃ cs, chunk_by_tokens chunk_size overlap (pySplit text).length text
        = some cs ∧ cs ≠ [] ∧
      dropOverlapConcat (3 * overlap / 4) (cs.map fun c => pySplit c.content)
        = pySplit text := by
  have hlen : 0 < (pySplit text).length := List.length_pos.mpr hne
  obtain ⟨cs, hrun, hcne, hcov, -⟩ :=
    chunkLoop_covers (pySplit text) (3 * chunk_size / 4) (3 * overlap / 4)
      hvalid (pySplit_wf text) (pySplit text).length 0 0 [] hlen (by omega)
  refine ⟨cs, ?_, hcne, ?_⟩
  · rw [chunk_by_tokens]
    simpa using hrun
  · simpa using hcov

theorem chunk_by_tokens_coverage_witness :
    (3 * 4 / 4 < 3 * 8 / 4 ∧ pySplit "a b".data ≠ []) ∧
    ∃ cs, chunk_by_tokens 8 4 (pySplit "a b".data).length "a b".data
        = some cs ∧ cs ≠ [] ∧
      dropOverlapConcat (3 * 4 / 4) (cs.map fun c => pySplit c.content)
        = pySplit "a b".data :=
  ⟨⟨by decide, by decide⟩,
    chunk_by_tokens_coverage 8 4 "a b".data (by decide) (by decide)⟩

/-- Claim C6 as stated is false: the single-space text is non-empty, yet
chunking it yields the empty chunk sequence (it contains no words). -/
theorem chunk_nonempty_text_cex :
    ([' '] : List Char) ≠ [] ∧ chunk_by_tokens 8000 500 1 [' '] = some [] := by
  constructor
  · decide
  · decide

/-- Claim C6 (amended): chunking the empty string returns the empty chunk
sequence (for every configuration and any positive fuel), and chunking a
text containing at least one whitespace-delimited word (with the default
configuration `chunk_size = 8000, overlap = 500`) returns at least one
chunk.  Texts that are non-empty but all-whitespace behave like the empty
string. -/
theorem chunk_empty_and_nonempty
    (chunk_size overlap fuel : Nat) (text : List Char)
    (hw : pySplit text ≠ []) :
    chunk_by_tokens chunk_size overlap (fuel + 1) [] = some [] ∧
    ∃ cs, chunk_by_tokens 8000 500 (pySplit text).length text = some cs ∧
      cs ≠ [] := by
  constructor
  · rw [chunk_by_tokens]
    have h0 : pySplit ([] : List Char) = [] := rfl
    rw [h0]
    rw [chunkLoop]
    simp
  · obtain ⟨cs, hrun, hcne, -⟩ := chunk_by_tokens_coverage 8000 500 text
      (by norm_num) hw
    exact ⟨cs, hrun, hcne⟩

theorem chunk_empty_and_nonempty_witness :
    pySplit "hi".data ≠ [] ∧
    (chunk_by_tokens 8000 500 1 [] = some [] ∧
      ∃ cs, chunk_by_tokens 8000 500 (pySplit "hi".data).length "hi".data
          = some cs ∧ cs ≠ []) :=
  ⟨by decide, chunk_empty_and_nonempty 8000 500 0 "hi".data (by decide)⟩

/-- Claim C10: with no section list (`None` or the empty list — both are
falsy in Python), `chunk_by_sections` returns exactly what
`chunk_by_tokens` returns, for every configuration, fuel and text. -/
theorem chunk_by_sections_no_sections_eq (chunk_size overlap fuel : Nat)
    (text : List Char) :
    chunk_by_sections chunk_size overlap fuel text none
        = chunk_by_tokens chunk_size overlap fuel text ∧
    chunk_by_sections chunk_size overlap fuel text (some [])
        = chunk_by_tokens chunk_size overlap fuel text :=
  ⟨rfl, rfl⟩

/-! ## `src/tools/text_cleaner.py` -/

/-- `re.sub(r' +', ' ', text)`: collapse runs of spaces (spaces only) to a
single space. -/
def collapseSpaces : List Char → List Char
  | [] => []
  | [c] => [c]
  | c1 :: c2 :: r =>
    if c1 = ' ' ∧ c2 = ' ' then collapseSpaces (c2 :: r)
    else c1 :: collapseSpaces (c2 :: r)

/-- `re.sub(r'\n\n+', '\n\n', text)`: collapse runs of ≥ 2 newlines to
exactly two. -/
def collapseNlRuns : List Char → List Char
  | '\n' :: '\n' :: '\n' :: r => collapseNlRuns ('\n' :: '\n' :: r)
  | c :: r => c :: collapseNlRuns r
  | [] => []

/-- Lines split on `'\n'`, each `str.strip()`ed, re-joined with `'\n'`. -/
def stripLines (l : List Char) : List Char := joinNl ((splitNl l).map pyStrip)

/-- `TextCleaner.normalize_whitespace`: collapse space runs, collapse
newline runs, strip every line, strip the whole string — in that order. -/
def normalize_whitespace (text : List Char) : List Char :=
  pyStrip (stripLines (collapseNlRuns (collapseSpaces text)))

/-- `str.replace(find, rep)` for a one-character needle (the only form
`normalize_unicode` uses). -/
def replaceChar (find : Char) (rep : List Char) (l : List Char) : List Char :=
  (l.map fun c => if c = find then rep else [c]).flatten

/-- `TextCleaner.normalize_unicode`.  The `unicodedata.normalize('NFKC', ·)`
call is an external library primitive and is taken as a parameter `nfkc`
(every theorem below holds for an arbitrary total `nfkc`); the fixed
typographic substitution table follows it in source order. -/
def normalize_unicode (nfkc : List Char → List Char) (text : List Char) :
    List Char :=
  replaceChar '­' []
    (replaceChar ' ' [' ']
      (replaceChar '…' ['.', '.', '.']
        (replaceChar '—' ['-', '-']
          (replaceChar '–' ['-']
            (replaceChar '”' ['"']
              (replaceChar '“' ['"']
                (replaceChar '’' ['\'']
                  (replaceChar '‘' ['\''] (nfkc text)))))))))

/-- Generic fuelled `re.sub` scanner: `m` reports, at the current position,
the replacement and the (positive) matched length; on no match the scanner
advances one character.  Fuel `l.length` always suffices. -/
def subAllGo (m : List Char → Option (List Char × Nat)) :
    Nat → List Char → List Char
  | _, [] => []
  | 0, l => l
  | fuel + 1, c :: r =>
    match m (c :: r) with
    | some (rep, k) => rep ++ subAllGo m fuel (r.drop (k - 1))
    | none => c :: subAllGo m fuel r

def subAll (m : List Char → Option (List Char × Nat)) (l : List Char) :
    List Char := subAllGo m l.length l

/-- Matcher for `\\name\{([^}]+)\}` (replaced by the argument when `keep`,
by the empty string otherwise). -/
def matchCmdArg (name : List Char) (keep : Bool) (l : List Char) :
    Option (List Char × Nat) :=
  let pat := '\\' :: (name ++ ['{'])
  if leadsWith l pat then
    let after := l.drop pat.length
    let arg := after.takeWhile (fun c => c ≠ '}')
    if arg ≠ [] ∧ leadsWith (after.drop arg.length) ['}'] then
      some ((if keep then arg else []), pat.length + arg.length + 1)
    else none
  else none

/-- Matcher for `\\[a-zA-Z]+` (removed outright). -/
def matchCmdBare (l : List Char) : Option (List Char × Nat) :=
  match l with
  | '\\' :: r =>
    let letters := r.takeWhile asciiIsAlpha
    if letters ≠ [] then some ([], 1 + letters.length) else none
  | _ => none

/-- `re.sub(r'\s+', ' ', text)`: collapse whitespace runs to one space. -/
def collapseWsAll : List Char → List Char
  | [] => []
  | [c] => if pyIsSpace c then [' '] else [c]
  | c1 :: c2 :: r =>
    if pyIsSpace c1 ∧ pyIsSpace c2 then collapseWsAll (c2 :: r)
    else (if pyIsSpace c1 then ' ' else c1) :: collapseWsAll (c2 :: r)

/-- `TextCleaner.remove_latex`: the eleven ordered pattern substitutions of
`latex_replacements`, then removal of residual braces, then whitespace
collapsing. -/
def remove_latex (text : List Char) : List Char :=
  let t1 := subAll (matchCmdArg "textbf".data true) text
  let t2 := subAll (matchCmdArg "textit".data true) t1
  let t3 := subAll (matchCmdArg "emph".data true) t2
  let t4 := subAll (matchCmdArg "section".data true) t3
  let t5 := subAll (matchCmdArg "subsection".data true) t4
  let t6 := subAll (matchCmdArg "cite".data false) t5
  let t7 := subAll (matchCmdArg "ref".data false) t6
  let t8 := subAll (matchCmdArg "label".data false) t7
  let t9 := subAll (matchCmdArg "begin".data false) t8
  let t10 := subAll (matchCmdArg "end".data false) t9
  let t11 := subAll matchCmdBare t10
  let t12 := (t11.filter (fun c => c ≠ '{')).filter (fun c => c ≠ '}')
  collapseWsAll t12

/-- Matcher for `(\w)-\s*\n\s*(\w)` replaced by `\1\2` (hyphenated line
break). -/
def matchHyphenBreak (l : List Char) : Option (List Char × Nat) :=
  match l with
  | c1 :: '-' :: r =>
    if isWordChar c1 then
      let run := r.takeWhile pyIsSpace
      if run.contains '\n' then
        match r.drop run.length with
        | c2 :: _ =>
          if isWordChar c2 then some ([c1, c2], 2 + run.length + 1) else none
        | [] => none
      else none
    else none
  | _ => none

/-- Matcher for `([a-z,])\s*\n\s*([a-z])` replaced by `\1 \2` (wrapped
prose lines). -/
def matchLowerJoin (l : List Char) : Option (List Char × Nat) :=
  match l with
  | c1 :: r =>
    if asciiIsLower c1 ∨ c1 = ',' then
      let run := r.takeWhile pyIsSpace
      if run.contains '\n' then
        match r.drop run.length with
        | c2 :: _ =>
          if asciiIsLower c2 then some ([c1, ' ', c2], 1 + run.length + 1)
          else none
        | [] => none
      else none
    else none
  | [] => none

/-- Matcher for `\n\s*\n` replaced by `\n\n` (the greedy `\s*` makes the
final literal `\n` match the last newline of the whitespace run). -/
def matchNlWsNl (l : List Char) : Option (List Char × Nat) :=
  match l with
  | '\n' :: r =>
    let run := r.takeWhile pyIsSpace
    if run.contains '\n' then
      let t := (run.reverse.takeWhile (fun c => c ≠ '\n')).length
      some (['\n', '\n'], 1 + (run.length - t))
    else none
  | _ => none

/-- `re.sub(r'(?<!\n)\n(?!\n)', ' ', text)`: replace each newline not
adjacent to another newline (positions refer to the original string) by a
space.  `prevNl` records whether the previous original character was a
newline. -/
def removeSingleNlGo (prevNl : Bool) : List Char → List Char
  | [] => []
  | '\n' :: r =>
    if ¬ prevNl ∧ r.head? ≠ some '\n' then ' ' :: removeSingleNlGo true r
    else '\n' :: removeSingleNlGo true r
  | c :: r => c :: removeSingleNlGo false r

/-- `TextCleaner.fix_line_breaks`: the four ordered substitutions. -/
def fix_line_breaks (text : List Char) : List Char :=
  removeSingleNlGo false
    (subAll matchNlWsNl
      (subAll matchLowerJoin
        (subAll matchHyphenBreak text)))

/-- Matcher for `https?://\S+` (removed). -/
def matchHttpUrl (l : List Char) : Option (List Char × Nat) :=
  if leadsWith l "https://".data then
    let tok := (l.drop 8).takeWhile (fun c => ¬ pyIsSpace c)
    if tok ≠ [] then some ([], 8 + tok.length) else none
  else if leadsWith l "http://".data then
    let tok := (l.drop 7).takeWhile (fun c => ¬ pyIsSpace c)
    if tok ≠ [] then some ([], 7 + tok.length) else none
  else none

/-- Matcher for `www\.\S+` (removed). -/
def matchWwwUrl (l : List Char) : Option (List Char × Nat) :=
  if leadsWith l "www.".data then
    let tok := (l.drop 4).takeWhile (fun c => ¬ pyIsSpace c)
    if tok ≠ [] then some ([], 4 + tok.length) else none
  else none

/-- `TextCleaner.remove_urls`. -/
def remove_urls (text : List Char) : List Char :=
  subAll matchWwwUrl (subAll matchHttpUrl text)

/-- `TextCleaner.clean_text`.  `text` is `Option` so that Python `None` is
representable; `if not text: return ""` catches both `None` and the empty
string.  The five keyword flags keep their source defaults at call sites. -/
def clean_text (nfkc : List Char → List Char) (text : Option (List Char))
    (remove_latex_f normalize_unicode_f normalize_whitespace_f
      remove_urls_f fix_line_breaks_f : Bool) : List Char :=
  match text with
  | none => []
  | some t =>
    if t = [] then []
    else
      let t1 := if normalize_unicode_f then normalize_unicode nfkc t else t
      let t2 := if remove_latex_f then remove_latex t1 else t1
      let t3 := if fix_line_breaks_f then fix_line_breaks t2 else t2
      let t4 := if remove_urls_f then remove_urls t3 else t3
      if normalize_whitespace_f then normalize_whitespace t4 else t4

/-! ## `splitNl` / `joinNl` basics -/

/-- Python `str.rstrip()`. -/
def pyRStrip (l : List Char) : List Char :=
  (l.reverse.dropWhile pyIsSpace).reverse

lemma pyStrip_eq (l : List Char) : pyStrip l = pyRStrip (pyLStrip l) := rfl

lemma splitNl_ne_nil (l : List Char) : splitNl l ≠ [] := by
  cases l with
  | nil => simp [splitNl]
  | cons c r =>
    by_cases h : c = '\n'
    · simp [splitNl, h]
    · rcases hsr : splitNl r with _ | ⟨w, ws⟩ <;> simp [splitNl, h, hsr]

lemma splitNl_cons_of_ne (c : Char) (r : List Char) (h : c ≠ '\n')
    (w : List Char) (ws : List (List Char)) (hr : splitNl r = w :: ws) :
    splitNl (c :: r) = (c :: w) :: ws := by
  simp [splitNl, h, hr]

lemma splitNl_no_nl (l : List Char) : ∀ w ∈ splitNl l, '\n' ∉ w := by
  induction l with
  | nil => intro w hw; simp [splitNl] at hw; simp [hw]
  | cons c r ih =>
    intro w hw
    by_cases h : c = '\n'
    · subst h
      simp only [splitNl, if_pos rfl] at hw
      rcases List.mem_cons.mp hw with h | h
      · simp [h]
      · exact ih w h
    · rcases hsr : splitNl r with _ | ⟨w', ws⟩
      · exact absurd hsr (splitNl_ne_nil r)
      · rw [splitNl_cons_of_ne c r h w' ws hsr] at hw
        rcases List.mem_cons.mp hw with h2 | h2
        · subst h2
          have hnl := ih w' (hsr ▸ List.mem_cons_self w' ws)
          intro hmem
          rcases List.mem_cons.mp hmem with h3 | h3
          · exact h h3.symm
          · exact hnl h3
        · exact ih w (hsr ▸ List.mem_cons_of_mem w' h2)

lemma splitNl_head_pref (l : List Char) :
    ∀ w ws, splitNl l = w :: ws → w <+: l := by
  induction l with
  | nil => intro w ws h; simp [splitNl] at h; simp [h.1]
  | cons c r ih =>
    intro w ws h
    by_cases hc : c = '\n'
    · subst hc
      rw [splitNl, if_pos rfl] at h
      obtain rfl : w = [] := (List.cons.injEq _ _ _ _ ▸ h).1.symm
      simp
    · rcases hsr : splitNl r with _ | ⟨w', ws'⟩
      · exact absurd hsr (splitNl_ne_nil r)
      · rw [splitNl_cons_of_ne c r hc w' ws' hsr] at h
        obtain ⟨rfl, -⟩ : w = c :: w' ∧ ws = ws' :=
          ⟨(List.cons.injEq _ _ _ _ ▸ h).1.symm,
            (List.cons.injEq _ _ _ _ ▸ h).2.symm⟩
        exact (List.cons_prefix_cons).mpr ⟨rfl, ih w' ws' hsr⟩

lemma splitNl_mem_isInf (l : List Char) : ∀ w ∈ splitNl l, w <:+: l := by
  induction l with
  | nil => intro w hw; simp [splitNl] at hw; simp [hw]
  | cons c r ih =>
    intro w hw
    by_cases h : c = '\n'
    · subst h
      simp only [splitNl, if_pos rfl] at hw
      rcases List.mem_cons.mp hw with h | h
      · simp [h]
      · exact (ih w h).trans (List.suffix_cons '\n' r).isInfix
    · rcases hsr : splitNl r with _ | ⟨w', ws⟩
      · exact absurd hsr (splitNl_ne_nil r)
      · rw [splitNl_cons_of_ne c r h w' ws hsr] at hw
        rcases List.mem_cons.mp hw with h2 | h2
        · subst h2
          exact (splitNl_head_pref (c :: r) (c :: w') ws
            (splitNl_cons_of_ne c r h w' ws hsr)).isInfix
        · exact ((ih w (hsr ▸ List.mem_cons_of_mem w' h2)).trans
            (List.suffix_cons c r).isInfix)

lemma joinNl_splitNl (l : List Char) : joinNl (splitNl l) = l := by
  induction l with
  | nil => simp [splitNl, joinNl, joinWith]
  | cons c r ih =>
    by_cases h : c = '\n'
    · subst h
      rcases hsr : splitNl r with _ | ⟨w, ws⟩
      · exact absurd hsr (splitNl_ne_nil r)
      · rw [splitNl, if_pos rfl, hsr]
        show joinWith ['\n'] ([] :: w :: ws) = '\n' :: r
        rw [joinWith_cons_cons]
        rw [hsr] at ih
        simpa [joinNl] using ih
    · rcases hsr : splitNl r with _ | ⟨w, ws⟩
      · exact absurd hsr (splitNl_ne_nil r)
      · rw [splitNl_cons_of_ne c r h w ws hsr]
        rw [hsr] at ih
        cases ws with
        | nil =>
          simp only [joinNl, joinWith] at ih ⊢
          rw [ih]
        | cons w2 ws2 =>
          show joinWith ['\n'] ((c :: w) :: w2 :: ws2) = c :: r
          rw [joinWith_cons_cons]
          rw [show joinNl (w :: w2 :: ws2) = joinWith ['\n'] (w :: w2 :: ws2) from rfl,
            joinWith_cons_cons] at ih
          simpa using ih

lemma splitNl_of_no_nl (w : List Char) (hw : '\n' ∉ w) : splitNl w = [w] := by
  induction w with
  | nil => simp [splitNl]
  | cons c r ih =>
    have hc : c ≠ '\n' := fun h => hw (by simp [h])
    have hr := ih (fun h => hw (by simp [h]))
    rw [splitNl_cons_of_ne c r hc r [] hr]

lemma splitNl_word_append (w y : List Char) (hw : '\n' ∉ w) :
    splitNl (w ++ '\n' :: y) = w :: splitNl y := by
  induction w with
  | nil => simp [splitNl]
  | cons c r ih =>
    have hc : c ≠ '\n' := fun h => hw (by simp [h])
    have hr := ih (fun h => hw (by simp [h]))
    rw [List.cons_append, splitNl_cons_of_ne c _ hc r (splitNl y) hr]

lemma splitNl_joinNl (ws : List (List Char)) (hne : ws ≠ [])
    (hnl : ∀ w ∈ ws, '\n' ∉ w) : splitNl (joinNl ws) = ws := by
  induction ws with
  | nil => exact absurd rfl hne
  | cons w ws ih =>
    cases ws with
    | nil =>
      show splitNl (joinWith ['\n'] [w]) = [w]
      rw [joinWith]
      exact splitNl_of_no_nl w (hnl w (by simp))
    | cons w2 ws2 =>
      show splitNl (joinWith ['\n'] (w :: w2 :: ws2)) = w :: w2 :: ws2
      rw [joinWith_cons_cons]
      have : w ++ ['\n'] ++ joinWith ['\n'] (w2 :: ws2)
          = w ++ '\n' :: joinNl (w2 :: ws2) := by simp [joinNl]
      rw [this, splitNl_word_append w _ (hnl w (by simp))]
      rw [ih (by simp) (fun x hx => hnl x (by simp [hx]))]

lemma joinNl_append_last (xs : List (List Char)) (y : List Char)
    (h : xs ≠ []) : joinNl (xs ++ [y]) = joinNl xs ++ '\n' :: y := by
  induction xs with
  | nil => exact absurd rfl h
  | cons w ws ih =>
    cases ws with
    | nil => simp [joinNl, joinWith, joinWith_cons_cons]
    | cons w2 ws2 =>
      show joinWith ['\n'] (w :: w2 :: (ws2 ++ [y]))
          = joinWith ['\n'] (w :: w2 :: ws2) ++ '\n' :: y
      rw [joinWith_cons_cons, joinWith_cons_cons]
      have ih' : joinWith ['\n'] (w2 :: (ws2 ++ [y]))
          = joinWith ['\n'] (w2 :: ws2) ++ '\n' :: y := ih (by simp)
      rw [ih']
      simp

lemma reverse_joinNl (ws : List (List Char)) :
    (joinNl ws).reverse = joinNl ((ws.map List.reverse).reverse) := by
  induction ws with
  | nil => simp [joinNl, joinWith]
  | cons w ws ih =>
    cases ws with
    | nil => simp [joinNl, joinWith]
    | cons w2 ws2 =>
      show (joinWith ['\n'] (w :: w2 :: ws2)).reverse = _
      rw [joinWith_cons_cons]
      have hmr : ((w :: w2 :: ws2).map List.reverse).reverse
          = ((w2 :: ws2).map List.reverse).reverse ++ [w.reverse] := by simp
      rw [hmr, joinNl_append_last _ _ (by simp)]
      rw [← ih]
      simp [joinNl]

/-! ## `pyStrip` lemmas -/

lemma dropWhile_head?_not (p : Char → Bool) (l : List Char) :
    ∀ c, (l.dropWhile p).head? = some c → p c = false := by
  induction l with
  | nil => intro c h; simp [List.dropWhile] at h
  | cons d r ih =>
    intro c h
    by_cases hd : p d
    · rw [List.dropWhile_cons_of_pos hd] at h
      exact ih c h
    · rw [List.dropWhile_cons_of_neg hd] at h
      simp only [List.head?_cons, Option.some.injEq] at h
      subst h
      simpa using hd

lemma pyRStrip_pref (l : List Char) : pyRStrip l <+: l := by
  have h1 : l.reverse.dropWhile pyIsSpace <:+ l.reverse :=
    List.dropWhile_suffix pyIsSpace
  have h2 : (l.reverse.dropWhile pyIsSpace).reverse.reverse <:+ l.reverse := by
    simpa using h1
  have := (List.reverse_suffix).mp h2
  simpa [pyRStrip] using this

lemma pyStrip_isInf (l : List Char) : pyStrip l <:+: l := by
  rw [pyStrip_eq]
  exact (pyRStrip_pref (pyLStrip l)).isInfix.trans
    (List.dropWhile_suffix pyIsSpace).isInfix

lemma pyRStrip_getLast? (l : List Char) :
    ∀ c, (pyRStrip l).getLast? = some c → pyIsSpace c = false := by
  intro c h
  rw [pyRStrip, List.getLast?_reverse] at h
  exact dropWhile_head?_not pyIsSpace l.reverse c h

lemma prefix_head?_eq {l₁ l₂ : List Char} (h : l₁ <+: l₂) (hne : l₁ ≠ []) :
    l₂.head? = l₁.head? := by
  obtain ⟨t, rfl⟩ := h
  cases l₁ with
  | nil => exact absurd rfl hne
  | cons c r => rfl

lemma pyStrip_head? (l : List Char) :
    ∀ c, (pyStrip l).head? = some c → pyIsSpace c = false := by
  intro c h
  have hne : pyStrip l ≠ [] := by
    intro he; rw [he] at h; simp at h
  have := prefix_head?_eq (pyRStrip_pref (pyLStrip l)) (by rw [← pyStrip_eq]; exact hne)
  rw [← pyStrip_eq] at this
  rw [← this] at h
  exact dropWhile_head?_not pyIsSpace l c h

lemma pyStrip_getLast? (l : List Char) :
    ∀ c, (pyStrip l).getLast? = some c → pyIsSpace c = false := by
  rw [pyStrip_eq]
  exact pyRStrip_getLast? (pyLStrip l)

lemma pyRStrip_fix (l : List Char)
    (h : ∀ c, l.getLast? = some c → pyIsSpace c = false) : pyRStrip l = l := by
  rw [pyRStrip]
  have : l.reverse.dropWhile pyIsSpace = l.reverse := by
    cases hr : l.reverse with
    | nil => simp
    | cons c r =>
      have hc : l.getLast? = some c := by
        rw [← List.head?_reverse, hr]; rfl
      rw [List.dropWhile_cons_of_neg (by simp [h c hc])]
  rw [this, List.reverse_reverse]

lemma pyStrip_fix (l : List Char)
    (h1 : ∀ c, l.head? = some c → pyIsSpace c = false)
    (h2 : ∀ c, l.getLast? = some c → pyIsSpace c = false) : pyStrip l = l := by
  rw [pyStrip_eq]
  have hls : pyLStrip l = l := by
    rw [pyLStrip]
    cases l with
    | nil => simp
    | cons c r => rw [List.dropWhile_cons_of_neg (by simp [h1 c rfl])]
  rw [hls]
  exact pyRStrip_fix l h2

lemma pyStrip_idem (l : List Char) : pyStrip (pyStrip l) = pyStrip l :=
  pyStrip_fix (pyStrip l) (pyStrip_head? l) (pyStrip_getLast? l)

lemma pyRStrip_of_stripped (l : List Char) (h : pyStrip l = l) :
    pyRStrip l = l :=
  pyRStrip_fix l (fun c hc => pyStrip_getLast? l c (by rw [h]; exact hc))

/-! ## Double-space lemmas (`re.sub(' +', ' ')` invariants) -/

lemma collapseSpaces_head? (c2 : Char) (r : List Char) (h : c2 ≠ ' ') :
    (collapseSpaces (c2 :: r)).head? = some c2 := by
  cases r with
  | nil => simp [collapseSpaces]
  | cons c3 r3 => simp [collapseSpaces, h]

lemma collapseSpaces_noDS (l : List Char) :
    ¬ [' ', ' '] <:+: collapseSpaces l := by
  induction l using collapseSpaces.induct with
  | case1 => intro h; simp [collapseSpaces] at h
  | case2 c =>
    intro h
    have := h.length_le
    simp [collapseSpaces] at this
  | case3 c1 c2 r hc ih =>
    rw [collapseSpaces, if_pos hc]
    exact ih
  | case4 c1 c2 r hc ih =>
    rw [collapseSpaces, if_neg hc]
    intro hin
    rcases List.infix_cons_iff.mp hin with hp | hi
    · obtain ⟨hc1, hv⟩ := List.cons_prefix_cons.mp hp
      have hne : c2 ≠ ' ' := fun he => hc ⟨hc1.symm, he⟩
      have hhd := prefix_head?_eq hv (by simp)
      rw [collapseSpaces_head? c2 r hne] at hhd
      simp at hhd
      exact hne hhd
    · exact ih hi

lemma collapseSpaces_fix (l : List Char) (h : ¬ [' ', ' '] <:+: l) :
    collapseSpaces l = l := by
  induction l using collapseSpaces.induct with
  | case1 => rfl
  | case2 c => rfl
  | case3 c1 c2 r hc ih =>
    refine absurd (List.IsPrefix.isInfix ?_) h
    rw [hc.1, hc.2]
    exact ⟨r, rfl⟩
  | case4 c1 c2 r hc ih =>
    rw [collapseSpaces, if_neg hc]
    rw [ih (fun hin => h (hin.trans (List.suffix_cons c1 (c2 :: r)).isInfix))]

lemma collapseNlRuns_cons (c : Char) (r : List Char)
    (hne : ∀ r', c = '\n' → r = '\n' :: '\n' :: r' → False) :
    collapseNlRuns (c :: r) = c :: collapseNlRuns r := by
  rw [collapseNlRuns]
  exact hne

lemma collapseNlRuns_head? (l : List Char) :
    (collapseNlRuns l).head? = l.head? := by
  induction l using collapseNlRuns.induct with
  | case1 r ih => rw [collapseNlRuns]; rw [ih]; rfl
  | case2 c r hne ih => rw [collapseNlRuns_cons c r hne]; rfl
  | case3 => rfl

lemma collapseNlRuns_ne_nil (l : List Char) (h : l ≠ []) :
    collapseNlRuns l ≠ [] := by
  intro he
  have := collapseNlRuns_head? l
  rw [he] at this
  cases l with
  | nil => exact h rfl
  | cons c r => simp at this

lemma collapseNlRuns_getLast? (l : List Char) :
    (collapseNlRuns l).getLast? = l.getLast? := by
  induction l using collapseNlRuns.induct with
  | case1 r ih =>
    rw [collapseNlRuns, ih]
    simp [List.getLast?_cons_cons]
  | case2 c r hne ih =>
    rw [collapseNlRuns_cons c r hne]
    cases r with
    | nil => rfl
    | cons c2 r2 =>
      rcases hbr : collapseNlRuns (c2 :: r2) with _ | ⟨x, xs⟩
      · exact absurd hbr (collapseNlRuns_ne_nil _ (by simp))
      · rw [List.getLast?_cons_cons, ← hbr, ih, List.getLast?_cons_cons]
  | case3 => rfl

lemma collapseNlRuns_noDS (l : List Char) (h : ¬ [' ', ' '] <:+: l) :
    ¬ [' ', ' '] <:+: collapseNlRuns l := by
  induction l using collapseNlRuns.induct with
  | case1 r ih =>
    rw [collapseNlRuns]
    exact ih (fun hin => h (hin.trans (List.suffix_cons '\n' _).isInfix))
  | case2 c r hne ih =>
    rw [collapseNlRuns_cons c r hne]
    intro hin
    rcases List.infix_cons_iff.mp hin with hp | hi
    · obtain ⟨hc1, hv⟩ := List.cons_prefix_cons.mp hp
      have hhd := prefix_head?_eq hv (by simp)
      rw [collapseNlRuns_head? r] at hhd
      cases r with
      | nil => simp at hhd
      | cons c2 r2 =>
        simp only [List.head?_cons, Option.some.injEq] at hhd
        refine h (List.IsPrefix.isInfix ?_)
        rw [← hc1, ← hhd]
        exact ⟨r2, rfl⟩
    · exact ih (fun hin2 => h (hin2.trans (List.suffix_cons c r).isInfix)) hi
  | case3 => exact h

/-- A two-character pattern inside `x ++ y` lies in `x`, lies in `y`, or
spans the boundary. -/
lemma infix_pair_append (u v : Char) (x y : List Char)
    (h : [u, v] <:+: x ++ y) :
    [u, v] <:+: x ∨ [u, v] <:+: y ∨
      (x.getLast? = some u ∧ y.head? = some v) := by
  induction x with
  | nil => exact Or.inr (Or.inl (by simpa using h))
  | cons c x' ih =>
    rcases List.infix_cons_iff.mp h with hp | hi
    · obtain ⟨hc, hv⟩ := List.cons_prefix_cons.mp hp
      cases x' with
      | nil =>
        refine Or.inr (Or.inr ⟨by simp [hc], ?_⟩)
        have hh := prefix_head?_eq hv (by simp)
        simpa using hh
      | cons d x'' =>
        obtain ⟨hd, -⟩ := List.cons_prefix_cons.mp hv
        left
        refine List.IsPrefix.isInfix ?_
        rw [← hc, ← hd]
        exact ⟨x'', by simp⟩
    · rcases ih hi with h1 | h1 | h1
      · exact Or.inl (h1.trans (List.suffix_cons c x').isInfix)
      · exact Or.inr (Or.inl h1)
      · refine Or.inr (Or.inr ⟨?_, h1.2⟩)
        have hx' : x' ≠ [] := by
          intro he
          rw [he] at h1
          simp at h1
        cases x' with
        | nil => exact absurd rfl hx'
        | cons d x'' => rw [List.getLast?_cons_cons]; exact h1.1

lemma joinNl_noDS (ws : List (List Char))
    (h : ∀ w ∈ ws, ¬ [' ', ' '] <:+: w) : ¬ [' ', ' '] <:+: joinNl ws := by
  induction ws with
  | nil => intro hin; simp [joinNl, joinWith] at hin
  | cons w ws ih =>
    cases ws with
    | nil => exact h w (by simp)
    | cons w2 ws2 =>
      show ¬ _ <:+: joinWith ['\n'] (w :: w2 :: ws2)
      rw [joinWith_cons_cons]
      intro hin
      rw [List.append_assoc] at hin
      rcases infix_pair_append ' ' ' ' w ('\n' :: joinWith ['\n'] (w2 :: ws2))
        (by simpa using hin) with h1 | h1 | h1
      · exact h w (by simp) h1
      · rcases List.infix_cons_iff.mp h1 with hp | hi
        · obtain ⟨hc, -⟩ := List.cons_prefix_cons.mp hp
          simp at hc
        · exact ih (fun u hu => h u (by simp [hu])) hi
      · simp at h1

lemma stripLines_noDS (x : List Char) (h : ¬ [' ', ' '] <:+: x) :
    ¬ [' ', ' '] <:+: stripLines x := by
  refine joinNl_noDS _ ?_
  intro w hw
  obtain ⟨w0, hw0, rfl⟩ := List.mem_map.mp hw
  exact fun hin =>
    h ((hin.trans (pyStrip_isInf w0)).trans (splitNl_mem_isInf x w0 hw0))

/-! ## Triple-newline lemmas (`re.sub('\n\n+', '\n\n')` invariants) -/

lemma collapseNlRuns_noTriple (l : List Char) :
    ¬ ['\n', '\n', '\n'] <:+: collapseNlRuns l := by
  induction l using collapseNlRuns.induct with
  | case1 r ih => rw [collapseNlRuns]; exact ih
  | case2 c r hne ih =>
    rw [collapseNlRuns_cons c r hne]
    intro hin
    rcases List.infix_cons_iff.mp hin with hp | hi
    · obtain ⟨hc1, hv⟩ := List.cons_prefix_cons.mp hp
      -- `['\n','\n'] <+: collapseNlRuns r` forces `r` to start with two newlines
      have hh1 := prefix_head?_eq hv (by simp)
      rw [collapseNlRuns_head? r] at hh1
      simp only [List.head?_cons] at hh1
      cases r with
      | nil => simp at hh1
      | cons c2 r2 =>
        simp only [List.head?_cons, Option.some.injEq] at hh1
        subst hh1
        have hr2 : ∀ r', r2 = '\n' :: r' → False := by
          intro r' hr'
          exact hne r' hc1.symm (by rw [hr'])
        rw [collapseNlRuns_cons '\n' r2
          (fun r' h1 h2 => hr2 ('\n' :: r') h2)] at hv
        obtain ⟨-, hv2⟩ := List.cons_prefix_cons.mp hv
        have hh2 := prefix_head?_eq hv2 (by simp)
        rw [collapseNlRuns_head? r2] at hh2
        simp only [List.head?_cons] at hh2
        cases r2 with
        | nil => simp at hh2
        | cons c3 r3 =>
          simp only [List.head?_cons, Option.some.injEq] at hh2
          subst hh2
          exact hr2 r3 rfl
    · exact ih hi
  | case3 => intro hin; simp [collapseNlRuns] at hin

lemma collapseNlRuns_fix (l : List Char)
    (h : ¬ ['\n', '\n', '\n'] <:+: l) : collapseNlRuns l = l := by
  induction l using collapseNlRuns.induct with
  | case1 r ih =>
    refine absurd (List.IsPrefix.isInfix ⟨r, rfl⟩) h
  | case2 c r hne ih =>
    rw [collapseNlRuns_cons c r hne]
    rw [ih (fun hin => h (hin.trans (List.suffix_cons c r).isInfix))]
  | case3 => rfl

lemma collapseNlRuns_idem (l : List Char) :
    collapseNlRuns (collapseNlRuns l) = collapseNlRuns l :=
  collapseNlRuns_fix _ (collapseNlRuns_noTriple l)

/-! ## Line-strippedness through `collapseNlRuns` -/

/-- After at least one header... the state of a line scan: all lines after
the first are stripped, and the first line is right-stripped (`mid`) or
fully stripped (`¬ mid`). -/
def linesOk (mid : Bool) (x : List Char) : Prop :=
  (∀ u ∈ (splitNl x).tail, pyStrip u = u) ∧
  ∀ w, (splitNl x).head? = some w →
    (if mid then pyRStrip w = w else pyStrip w = w)

lemma splitNl_cons_nl (z : List Char) : splitNl ('\n' :: z) = [] :: splitNl z := by
  simp [splitNl]

lemma linesOk_false_iff (x : List Char) :
    linesOk false x ↔ ∀ u ∈ splitNl x, pyStrip u = u := by
  rcases hs : splitNl x with _ | ⟨w, ws⟩
  · exact absurd hs (splitNl_ne_nil x)
  · simp only [linesOk, hs, List.tail_cons, List.head?_cons, if_false,
      Option.some.injEq, List.mem_cons]
    constructor
    · rintro ⟨h1, h2⟩ u (rfl | hu)
      · exact h2 u rfl
      · exact h1 u hu
    · intro h
      exact ⟨fun u hu => h u (Or.inr hu), fun v hv => h v (Or.inl hv.symm)⟩

lemma linesOk_cons_nl (mid : Bool) (z : List Char) :
    linesOk mid ('\n' :: z) ↔ ∀ u ∈ splitNl z, pyStrip u = u := by
  rw [linesOk, splitNl_cons_nl]
  simp only [List.tail_cons, List.head?_cons, Option.some.injEq]
  constructor
  · rintro ⟨h1, -⟩
    exact h1
  · intro h
    refine ⟨h, ?_⟩
    rintro w rfl
    cases mid <;> simp [pyStrip, pyRStrip, pyLStrip]

lemma pyRStrip_tail (c : Char) (w : List Char)
    (h : pyRStrip (c :: w) = c :: w) : pyRStrip w = w := by
  cases w with
  | nil => rfl
  | cons d w' =>
    refine pyRStrip_fix _ ?_
    intro e he
    refine pyRStrip_getLast? (c :: d :: w') e ?_
    rw [h, List.getLast?_cons_cons]
    exact he

lemma collapseNlRuns_splitNl_head (r : List Char) :
    ∀ w ws, splitNl r = w :: ws →
      ∃ ws', splitNl (collapseNlRuns r) = w :: ws' := by
  induction r using collapseNlRuns.induct with
  | case1 r ih =>
    intro w ws h
    rw [splitNl_cons_nl] at h
    obtain rfl : w = [] := ((List.cons.injEq _ _ _ _).mp h).1.symm
    rw [collapseNlRuns]
    exact ih [] (splitNl ('\n' :: r)) (splitNl_cons_nl ('\n' :: r))
  | case2 c r hne ih =>
    intro w ws h
    rw [collapseNlRuns_cons c r hne]
    by_cases hc : c = '\n'
    · subst hc
      rw [splitNl_cons_nl] at h
      obtain rfl : w = [] := ((List.cons.injEq _ _ _ _).mp h).1.symm
      exact ⟨splitNl (collapseNlRuns r), splitNl_cons_nl _⟩
    · rcases hsr : splitNl r with _ | ⟨w0, ws0⟩
      · exact absurd hsr (splitNl_ne_nil r)
      · rw [splitNl_cons_of_ne c r hc w0 ws0 hsr] at h
        obtain rfl : w = c :: w0 := ((List.cons.injEq _ _ _ _).mp h).1.symm
        obtain ⟨ws0', hws0'⟩ := ih w0 ws0 hsr
        exact ⟨ws0', splitNl_cons_of_ne c _ hc w0 ws0' hws0'⟩
  | case3 =>
    intro w ws h
    exact ⟨ws, h⟩

lemma linesOk_collapseNlRuns (x : List Char) :
    ∀ mid, linesOk mid x → linesOk mid (collapseNlRuns x) := by
  induction x using collapseNlRuns.induct with
  | case1 r ih =>
    intro mid h
    rw [collapseNlRuns]
    refine ih mid ?_
    rw [linesOk_cons_nl] at h ⊢
    intro u hu
    exact h u (by rw [splitNl_cons_nl]; exact List.mem_cons_of_mem [] hu)
  | case2 c r hne ih =>
    intro mid h
    rw [collapseNlRuns_cons c r hne]
    by_cases hc : c = '\n'
    · subst hc
      rw [linesOk_cons_nl] at h ⊢
      have hr : linesOk false r := (linesOk_false_iff r).mpr h
      exact (linesOk_false_iff _).mp (ih false hr)
    · rcases hsr : splitNl r with _ | ⟨w0, ws0⟩
      · exact absurd hsr (splitNl_ne_nil r)
      · have hx := splitNl_cons_of_ne c r hc w0 ws0 hsr
        obtain ⟨h1, h2⟩ := h
        rw [hx] at h1 h2
        simp only [List.tail_cons, List.head?_cons] at h1 h2
        have hfirst := h2 (c :: w0) rfl
        -- the tail of the first line is right-stripped in either mode
        have hw0rs : pyRStrip w0 = w0 := by
          cases mid with
          | false =>
            have hf : pyStrip (c :: w0) = c :: w0 := by simpa using hfirst
            exact pyRStrip_tail c w0 (pyRStrip_of_stripped _ hf)
          | true =>
            have hf : pyRStrip (c :: w0) = c :: w0 := by simpa using hfirst
            exact pyRStrip_tail c w0 hf
        have hrmid : linesOk true r := by
          rw [linesOk, hsr]
          simp only [List.tail_cons, List.head?_cons, Option.some.injEq]
          refine ⟨h1, ?_⟩
          rintro w rfl
          simpa using hw0rs
        have hbr := ih true hrmid
        obtain ⟨ws0', hws0'⟩ := collapseNlRuns_splitNl_head r w0 ws0 hsr
        obtain ⟨hb1, -⟩ := hbr
        rw [hws0'] at hb1
        simp only [List.tail_cons] at hb1
        refine ⟨?_, ?_⟩
        · rw [splitNl_cons_of_ne c _ hc w0 ws0' hws0']
          simpa using hb1
        · rw [splitNl_cons_of_ne c _ hc w0 ws0' hws0']
          simp only [List.head?_cons, Option.some.injEq]
          rintro w rfl
          exact hfirst
  | case3 =>
    intro mid h
    exact h

/-! ## Lines of `pyStrip (stripLines y)` -/

lemma pyLStrip_joinNl (ws : List (List Char))
    (h : ∀ w ∈ ws, ∀ c, w.head? = some c → pyIsSpace c = false) :
    pyLStrip (joinNl ws) = joinNl (ws.dropWhile (fun w => w = [])) := by
  induction ws with
  | nil => rfl
  | cons w ws ih =>
    rcases w with _ | ⟨c, w'⟩
    · cases ws with
      | nil => rfl
      | cons w2 ws2 =>
        show pyLStrip (joinWith ['\n'] ([] :: w2 :: ws2)) = _
        rw [joinWith_cons_cons]
        have hstep : pyLStrip ([] ++ ['\n'] ++ joinWith ['\n'] (w2 :: ws2))
            = pyLStrip (joinWith ['\n'] (w2 :: ws2)) := by
          show pyLStrip ('\n' :: joinWith ['\n'] (w2 :: ws2)) = _
          rw [pyLStrip, List.dropWhile_cons_of_pos (by decide)]
          rfl
        rw [hstep]
        rw [show joinWith ['\n'] (w2 :: ws2) = joinNl (w2 :: ws2) from rfl]
        rw [ih (fun u hu => h u (by simp [hu]))]
        simp
    · have hc : pyIsSpace c = false := h (c :: w') (by simp) c rfl
      have hkeep : ((c :: w') :: ws).dropWhile (fun u => u = [])
          = (c :: w') :: ws := by
        rw [List.dropWhile_cons_of_neg (by simp)]
      rw [hkeep]
      cases ws with
      | nil =>
        show pyLStrip (joinWith ['\n'] [c :: w']) = joinWith ['\n'] [c :: w']
        rw [joinWith]
        show List.dropWhile _ (c :: w') = c :: w'
        rw [List.dropWhile_cons_of_neg (by simp [hc])]
      | cons w2 ws2 =>
        show pyLStrip (joinWith ['\n'] ((c :: w') :: w2 :: ws2)) = _
        rw [joinWith_cons_cons]
        show List.dropWhile _ (c :: (w' ++ ['\n'] ++ _)) = _
        rw [List.dropWhile_cons_of_neg (by simp [hc])]
        rfl

lemma dropWhile_nil_map_reverse (B : List (List Char)) :
    (B.map List.reverse).dropWhile (fun w => w = [])
      = (B.dropWhile (fun w => w = [])).map List.reverse := by
  induction B with
  | nil => rfl
  | cons w B' ih =>
    by_cases hw : w = []
    · subst hw
      simpa using ih
    · rw [List.map_cons,
        List.dropWhile_cons_of_neg (by simpa using hw),
        List.dropWhile_cons_of_neg (by simpa using hw), List.map_cons]

/-- The lines of `pyStrip (stripLines y)` are all stripped: the inner pass
strips every line, and the outer strip only deletes leading and trailing
empty lines. -/
lemma pyStrip_stripLines_LS (y : List Char) :
    ∀ u ∈ splitNl (pyStrip (stripLines y)), pyStrip u = u := by
  set ws' : List (List Char) := (splitNl y).map pyStrip with hws'
  have hmem : ∀ w ∈ ws', (pyStrip w = w) ∧ '\n' ∉ w ∧
      (∀ c, w.head? = some c → pyIsSpace c = false) ∧
      (∀ c, w.getLast? = some c → pyIsSpace c = false) := by
    intro w hw
    obtain ⟨w0, hw0, rfl⟩ := List.mem_map.mp hw
    refine ⟨pyStrip_idem w0, ?_, pyStrip_head? w0, pyStrip_getLast? w0⟩
    intro hnl
    exact splitNl_no_nl y w0 hw0
      ((pyStrip_isInf w0).sublist.subset hnl)
  have hj : stripLines y = joinNl ws' := rfl
  rw [hj, pyStrip_eq]
  rw [pyLStrip_joinNl ws' (fun w hw => (hmem w hw).2.2.1)]
  set A : List (List Char) := ws'.dropWhile (fun w => w = []) with hA
  have hmemA : ∀ w ∈ A, (pyStrip w = w) ∧ '\n' ∉ w ∧
      (∀ c, w.head? = some c → pyIsSpace c = false) ∧
      (∀ c, w.getLast? = some c → pyIsSpace c = false) :=
    fun w hw => hmem w ((List.dropWhile_sublist _).subset hw)
  have hrs : pyRStrip (joinNl A) = joinNl
      ((((A.map List.reverse).reverse.dropWhile (fun w => w = [])).map
        List.reverse).reverse) := by
    rw [pyRStrip]
    have h1 : (joinNl A).reverse = joinNl ((A.map List.reverse).reverse) :=
      reverse_joinNl A
    rw [h1]
    have h2 : List.dropWhile pyIsSpace (joinNl ((A.map List.reverse).reverse))
        = joinNl (((A.map List.reverse).reverse).dropWhile (fun w => w = [])) := by
      refine pyLStrip_joinNl _ ?_
      intro w hw c hc
      rw [List.mem_reverse] at hw
      obtain ⟨a, ha, rfl⟩ := List.mem_map.mp hw
      rw [List.head?_reverse] at hc
      exact (hmemA a ha).2.2.2 c hc
    rw [h2, reverse_joinNl]
  rw [hrs]
  have hmemT : ∀ w ∈ ((((A.map List.reverse).reverse.dropWhile
      (fun w => w = [])).map List.reverse).reverse),
      (pyStrip w = w) ∧ '\n' ∉ w := by
    intro w hw
    rw [List.mem_reverse] at hw
    obtain ⟨b, hb, rfl⟩ := List.mem_map.mp hw
    have hb2 := (List.dropWhile_sublist _).subset hb
    rw [List.mem_reverse] at hb2
    obtain ⟨a, ha, rfl⟩ := List.mem_map.mp hb2
    rw [List.reverse_reverse]
    exact ⟨(hmemA a ha).1, (hmemA a ha).2.1⟩
  intro u hu
  rcases hT : ((((A.map List.reverse).reverse.dropWhile
      (fun w => w = [])).map List.reverse).reverse) with _ | ⟨t, ts⟩
  · rw [hT] at hu
    have h0 : splitNl (joinNl ([] : List (List Char))) = [[]] := rfl
    rw [h0] at hu
    simp only [List.mem_singleton] at hu
    subst hu
    rfl
  · rw [splitNl_joinNl _ (by rw [hT]; simp)
      (fun w hw => (hmemT w hw).2)] at hu
    exact (hmemT u hu).1

/-! ## `normalize_whitespace` image properties and the fixed point -/

lemma map_pyStrip_splitNl_fix (x : List Char)
    (h : ∀ u ∈ splitNl x, pyStrip u = u) : stripLines x = x := by
  rw [stripLines]
  have hmap : (splitNl x).map pyStrip = splitNl x := by
    have := List.map_congr_left (f := pyStrip) (g := id) h
    simpa using this
  rw [hmap, joinNl_splitNl]

lemma nw_noDS (s : List Char) :
    ¬ [' ', ' '] <:+: normalize_whitespace s := by
  intro hin
  refine stripLines_noDS (collapseNlRuns (collapseSpaces s))
    (collapseNlRuns_noDS _ (collapseSpaces_noDS s)) ?_
  exact hin.trans (pyStrip_isInf _)

lemma nw_LS (s : List Char) :
    ∀ u ∈ splitNl (normalize_whitespace s), pyStrip u = u :=
  pyStrip_stripLines_LS (collapseNlRuns (collapseSpaces s))

lemma nw_stripped (s : List Char) :
    pyStrip (normalize_whitespace s) = normalize_whitespace s :=
  pyStrip_idem _

lemma stripped_collapseNlRuns (t : List Char) (h : pyStrip t = t) :
    pyStrip (collapseNlRuns t) = collapseNlRuns t := by
  refine pyStrip_fix _ ?_ ?_
  · intro c hc
    rw [collapseNlRuns_head? t] at hc
    exact pyStrip_head? t c (by rw [h]; exact hc)
  · intro c hc
    rw [collapseNlRuns_getLast? t] at hc
    exact pyStrip_getLast? t c (by rw [h]; exact hc)

lemma LS_collapseNlRuns (t : List Char)
    (h : ∀ u ∈ splitNl t, pyStrip u = u) :
    ∀ u ∈ splitNl (collapseNlRuns t), pyStrip u = u :=
  (linesOk_false_iff _).mp
    (linesOk_collapseNlRuns t false ((linesOk_false_iff t).mpr h))

/-- On a string that is space-collapsed, line-stripped and stripped,
one `normalize_whitespace` pass only collapses blank-line runs, and a
further pass changes nothing. -/
lemma nw_fix_core (t : List Char)
    (h1 : ¬ [' ', ' '] <:+: t)
    (h2 : ∀ u ∈ splitNl t, pyStrip u = u)
    (h3 : pyStrip t = t) :
    normalize_whitespace t = collapseNlRuns t ∧
    normalize_whitespace (collapseNlRuns t) = collapseNlRuns t := by
  have ha : collapseSpaces t = t := collapseSpaces_fix t h1
  have hc : stripLines (collapseNlRuns t) = collapseNlRuns t :=
    map_pyStrip_splitNl_fix _ (LS_collapseNlRuns t h2)
  have hd : pyStrip (collapseNlRuns t) = collapseNlRuns t :=
    stripped_collapseNlRuns t h3
  constructor
  · show pyStrip (stripLines (collapseNlRuns (collapseSpaces t))) = _
    rw [ha, hc, hd]
  · have ha2 : collapseSpaces (collapseNlRuns t) = collapseNlRuns t :=
      collapseSpaces_fix _ (collapseNlRuns_noDS t h1)
    show pyStrip (stripLines (collapseNlRuns (collapseSpaces
      (collapseNlRuns t)))) = _
    rw [ha2, collapseNlRuns_idem, hc, hd]

/-- Claim C4 as stated is false: `normalize_whitespace` is not idempotent.
Stripping the whitespace-only lines of `"a\n \n \nb"` creates a new run of
three newlines after the newline-collapsing step has already run, so a
second application collapses it further. -/
theorem normalize_whitespace_not_idempotent :
    normalize_whitespace (normalize_whitespace "a\n \n \nb".data)
      ≠ normalize_whitespace "a\n \n \nb".data := by
  decide

/-- Claim C4 (amended): the second application of `normalize_whitespace` is
a fixed point — applying the function three times equals applying it twice,
for every input. -/
theorem normalize_whitespace_twice_fixed (s : List Char) :
    normalize_whitespace (normalize_whitespace (normalize_whitespace s))
      = normalize_whitespace (normalize_whitespace s) := by
  obtain ⟨hfix1, hfix2⟩ :=
    nw_fix_core (normalize_whitespace s) (nw_noDS s) (nw_LS s) (nw_stripped s)
  rw [hfix1, hfix2]

/-! ## `src/tools/pdf_parser.py` — section segmentation -/

/-- `pdf_parser.Section`. -/
structure Section where
  title : List Char
  content : List Char
  start_page : Nat
  end_page : Nat
  level : Nat := 1
deriving DecidableEq, Repr

/-- Tail of the section header pattern `\d+\.?\s+[A-Z][a-zA-Z\s]+`:
whitespace run (≥ 1), an uppercase letter, and at least one further letter
or whitespace character. -/
def headerNumTail (r : List Char) : Bool :=
  let sp := r.takeWhile pyIsSpace
  !sp.isEmpty &&
    match r.drop sp.length with
    | c :: c2 :: _ =>
      asciiIsUpper c && (asciiIsAlpha c2 || pyIsSpace c2)
    | _ => false

/-- `re.match(r'^\s*(\d+\.?\s+[A-Z][a-zA-Z\s]+)', s)`, e.g.
`"1. Introduction"`.  (After the digits, a literal `.` is consumed when
present; backtracking to the dot-less branch can never succeed because `.`
is not whitespace.) -/
def matchHeaderNum (s : List Char) : Bool :=
  let s1 := s.dropWhile pyIsSpace
  let digits := s1.takeWhile asciiIsDigit
  !digits.isEmpty &&
    match s1.drop digits.length with
    | '.' :: r2 => headerNumTail r2
    | r1 => headerNumTail r1

/-- `re.match(r'^\s*([A-Z][A-Z\s]{5,})', s)`, e.g. `"INTRODUCTION"`. -/
def matchHeaderCaps (s : List Char) : Bool :=
  let s1 := s.dropWhile pyIsSpace
  match s1 with
  | c :: rest =>
    asciiIsUpper c && (rest.take 5).length == 5 &&
      (rest.take 5).all (fun d => asciiIsUpper d || pyIsSpace d)
  | [] => false

/-- A line is a section header if either pattern matches its `strip()`. -/
def isHeaderLine (line : List Char) : Bool :=
  matchHeaderNum (pyStrip line) || matchHeaderCaps (pyStrip line)

/-- The loop state of `_extract_sections`: the currently open section title
(`current_section`), its accumulated content lines (`current_content`) and
the sections emitted so far. -/
structure SecState where
  cur : Option (List Char)
  content : List (List Char)
  secs : List Section
deriving Repr

/-- One line of the `_extract_sections` scan on page `pg`. -/
def procLine (pg : Nat) (st : SecState) (line : List Char) : SecState :=
  if isHeaderLine line then
    match st.cur with
    | some t =>
      { cur := some (pyStrip line), content := [],
        secs := st.secs ++ [⟨t, joinNl st.content, pg, pg, 1⟩] }
    | none => { cur := some (pyStrip line), content := [], secs := st.secs }
  else
    match st.cur with
    | some _ => { st with content := st.content ++ [line] }
    | none => st

/-- Close the final open section at the last page index. -/
def sfin (st : SecState) (lastPg : Nat) : List Section :=
  st.secs ++
    (match st.cur with
     | some t => [⟨t, joinNl st.content, lastPg, lastPg, 1⟩]
     | none => [])

/-- `PDFParser._extract_sections`. -/
def _extract_sections (page_texts : List (List Char)) : List Section :=
  sfin
    (page_texts.enum.foldl
      (fun st p => (splitNl p.2).foldl (procLine p.1) st)
      ⟨none, [], []⟩)
    (page_texts.length - 1)

/-! ## `pdf_parser` — title and author extraction -/

/-- The non-empty stripped lines,
`[line.strip() for line in text.split('\n') if line.strip()]`. -/
def nonEmptyLines (text : List Char) : List (List Char) :=
  ((splitNl text).map pyStrip).filter (fun l => l ≠ [])

/-- `str.split(',')` (keeps empty pieces). -/
def splitComma : List Char → List (List Char)
  | [] => [[]]
  | c :: r =>
    if c = ',' then [] :: splitComma r
    else
      match splitComma r with
      | [] => [[c]]
      | w :: ws => (c :: w) :: ws

/-- `str.replace(find, rep)` for a non-empty multi-character needle
(non-overlapping, left to right). -/
def replaceSub (find rep l : List Char) : List Char :=
  subAll (fun s => if leadsWith s find then some (rep, find.length) else none) l

/-- Python `str.isupper` (ASCII fragment): at least one letter and every
letter uppercase. -/
def pyIsUpperStr (w : List Char) : Bool :=
  w.any asciiIsAlpha && w.all (fun c => !asciiIsAlpha c || asciiIsUpper c)

/-- `re.search(r'\d{4}', s)`: four consecutive digits anywhere. -/
def has4Digits : List Char → Bool
  | [] => false
  | c :: r =>
    (((c :: r).take 4).length == 4 && ((c :: r).take 4).all asciiIsDigit)
      || has4Digits r

/-- Tail of the author-initials pattern: `\s+[A-Z]`. -/
def initialsTail (r : List Char) : Bool :=
  let sp := r.takeWhile pyIsSpace
  !sp.isEmpty &&
    match r.drop sp.length with
    | c :: _ => asciiIsUpper c
    | [] => false

/-- The author-initials pattern `[A-Z]\.[A-Z]\.?\s+[A-Z]` anchored at the
current position. -/
def initialsAt (s : List Char) : Bool :=
  match s with
  | c1 :: '.' :: c2 :: rest =>
    asciiIsUpper c1 && asciiIsUpper c2 &&
      (match rest with
       | '.' :: rest2 => initialsTail rest2 || initialsTail rest
       | _ => initialsTail rest)
  | _ => false

/-- `re.search(r'[A-Z]\.[A-Z]\.?\s+[A-Z]', s)`. -/
def hasInitials : List Char → Bool
  | [] => false
  | c :: r => initialsAt (c :: r) || hasInitials r

/-- `sum(c.isdigit() or not c.isalnum() for c in line) / len(line) > 0.5`,
exactly (the float comparison agrees with the rational one for all line
lengths ≤ 200). -/
def ratioJunkHigh (line : List Char) : Bool :=
  2 * (line.countP (fun c => asciiIsDigit c || !asciiIsAlnum c)) > line.length

/-- `sum(c.isalpha() or c.isspace() for c in s) / len(s) > 0.7`, exactly. -/
def ratioAlphaSpace (s : List Char) : Bool :=
  10 * (s.countP (fun c => asciiIsAlpha c || pyIsSpace c)) > 7 * s.length

/-- Tail of the citation-format pattern: `\s*\d+:\d+,\s*\d+-\d+`. -/
def citeNums (r : List Char) : Bool :=
  let r1 := r.dropWhile pyIsSpace
  let d1 := r1.takeWhile asciiIsDigit
  !d1.isEmpty &&
    match r1.drop d1.length with
    | ':' :: r2 =>
      let d2 := r2.takeWhile asciiIsDigit
      !d2.isEmpty &&
        match r2.drop d2.length with
        | ',' :: r3 =>
          let r4 := r3.dropWhile pyIsSpace
          let d3 := r4.takeWhile asciiIsDigit
          !d3.isEmpty &&
            match r4.drop d3.length with
            | '-' :: r5 =>
              match r5 with
              | c :: _ => asciiIsDigit c
              | [] => false
            | _ => false
        | _ => false
    | _ => false

/-- Scan for the `,`-anchored tail of `\d{4}\).*,\s*\d+:\d+,\s*\d+-\d+`
(the greedy `.*` only affects which match is taken, not whether one
exists). -/
def citeTailScan : List Char → Bool
  | [] => false
  | ',' :: rest => citeNums rest || citeTailScan rest
  | _ :: rest => citeTailScan rest

/-- The title-scan skip patterns (`skip_patterns` of `_extract_title`),
applied with `re.match` to the lowercased line. -/
def titleSkipMatch (line : List Char) : Bool :=
  let low := pyLower line
  leadsWith low "full terms".data ||
  leadsWith low "http://".data || leadsWith low "https://".data ||
  leadsWith low "issn:".data ||
  (!low.isEmpty && low.all asciiIsDigit) ||
  (leadsWith low "page ".data &&
    (match low.drop 5 with | c :: _ => asciiIsDigit c | [] => false)) ||
  leadsWith low "doi:".data ||
  leadsWith low "copyright".data ||
  leadsWith low "published".data ||
  leadsWith low "to cite".data ||
  leadsWith low "to link".data ||
  leadsWith low "article views".data ||
  leadsWith low "download".data ||
  leadsWith low "journal homepage".data ||
  leadsWith low "submit your".data ||
  leadsWith low "citing articles".data ||
  (low == "science and engineering".data) ||
  leadsWith low "catalysis reviews".data ||
  leadsWith low "braz j med biol res".data ||
  (let d := low.takeWhile asciiIsDigit
   !d.isEmpty &&
     (let r := low.drop d.length
      let sp := r.takeWhile pyIsSpace
      !sp.isEmpty && leadsWith (r.drop sp.length) "braz j".data)) ||
  (match low with
   | '(' :: rest =>
     (rest.take 4).length == 4 && (rest.take 4).all asciiIsDigit &&
       (match rest.drop 4 with | ')' :: _ => true | _ => false)
   | _ => false) ||
  ((low.take 4).length == 4 && (low.take 4).all asciiIsDigit &&
    (match low.drop 4 with
     | ')' :: r => citeTailScan r
     | _ => false)) ||
  leadsWith low "www.".data ||
  (let w1 := low.takeWhile isWordChar
   !w1.isEmpty &&
     (let r1 := (low.drop w1.length).dropWhile pyIsSpace
      match r1 with
      | '&' :: r2 =>
        let r3 := r2.dropWhile pyIsSpace
        let w2 := r3.takeWhile isWordChar
        !w2.isEmpty && (r3.drop w2.length).isEmpty
      | _ => false))

/-- The potential-title filter of `_extract_title`: not boilerplate,
length in `[15, 200]`, and at most half digits/non-alphanumerics. -/
def titleLineOk (line : List Char) : Bool :=
  !titleSkipMatch line && !(line.length < 15 || line.length > 200) &&
    !ratioJunkHigh line

/-- The `stop_words` of the title-continuation check. -/
def titleStopWords : List (List Char) :=
  ["abstract".data, "introduction".data, "keywords".data, "doi:".data,
   "issn".data, "university".data, "department".data, "laboratory".data,
   "correspondence".data]

/-- The title-continuation loop (`for next_idx in range(idx+1,
min(idx+4, len(lines)))`): grow `cand` by up to three continuation lines,
stopping at boilerplate, author-looking lines, sentence ends or stop
words. -/
def contLoop : List (List Char) → List Char → Nat → List Char
  | [], cand, _ => cand
  | nl :: rest, cand, added =>
    if added ≥ 3 then cand
    else
      let next_line := pyStrip nl
      if next_line.length < 5 then contLoop rest cand added
      else if titleSkipMatch next_line then cand
      else if next_line.contains ',' && hasInitials next_line then cand
      else if next_line.contains ',' &&
          (next_line.contains '&' ||
            containsTok (pyLower next_line) " and ".data) then cand
      else if next_line.contains ',' &&
          next_line.countP (fun c => c = ',') ≥ 3 then cand
      else if next_line.getLast? == some '.' then cand
      else if !next_line.isEmpty then
        if titleStopWords.any (fun sw => containsTok (pyLower next_line) sw)
        then cand
        else
          let ws := pySplit next_line
          let single := ws.countP (fun w => w.length ≤ 2 && pyIsUpperStr w)
          if 5 * single < 2 * ws.length then
            contLoop rest (cand ++ ' ' :: next_line) (added + 1)
          else cand
      else cand

/-- The candidate-collection loop of `_extract_title` (breaks once the
line index exceeds 15). -/
def collectCandidates (lines : List (List Char)) :
    List (Nat × List Char) → List (List Char)
  | [] => []
  | (idx, title) :: rest =>
    if idx > 15 then []
    else
      let ws := pySplit title
      if ws.length ≥ 3 &&
          (ws.countP (fun w =>
            match w with
            | c :: _ => asciiIsUpper c
            | [] => false)) ≥ 2 then
        let cand := contLoop ((lines.drop (idx + 1)).take 3) title 0
        if 10 ≤ cand.length && cand.length ≤ 200 then
          cand :: collectCandidates lines rest
        else collectCandidates lines rest
      else collectCandidates lines rest

/-- `sort(reverse=True)` on `(score, title)` pairs is stable, so the head
of the sorted list is the first candidate attaining the maximal score. -/
def pickBest : List (Int × List Char) → Option (List Char)
  | [] => none
  | (s, t) :: rest =>
    match pickBest rest with
    | none => some t
    | some t' =>
      let sBest := ((rest.map Prod.fst).foldl max s)
      if s < sBest then some t' else some t

/-- `PDFParser._extract_title`.  The `metadata` dictionary only matters
through `metadata.get('pdf_title')`, taken here as an `Option`. -/
def _extract_title (pdf_title : Option (List Char)) (text : List Char) :
    List Char :=
  let scan : List Char :=
    let lines := nonEmptyLines text
    let potential_titles := ((lines.take 50).enum).filter
      (fun p => titleLineOk p.2)
    let title_candidates := collectCandidates lines potential_titles
    match title_candidates with
    | _ :: _ =>
      let scored := title_candidates.enum.map
        (fun p => ((p.2.length : Int) - 5 * p.1, p.2))
      (pickBest scored).getD "Untitled Paper".data
    | [] =>
      match potential_titles with
      | (_, t) :: _ => t
      | [] => "Untitled Paper".data
  match pdf_title with
  | some t0 =>
    if t0 ≠ [] then
      let t := pyStrip t0
      if !([".dvi".data, ".tex".data, "untitled".data, "document".data,
            "\\".data].any (fun x => containsTok (pyLower t) x)) then
        if t.length > 10 then t else scan
      else scan
    else scan
  | none => scan

/-- The author-scan skip patterns of `_extract_authors`. -/
def authorSkipMatch (line : List Char) : Bool :=
  let low := pyLower line
  leadsWith low "full terms".data ||
  leadsWith low "http://".data || leadsWith low "https://".data ||
  (!low.isEmpty && low.all asciiIsDigit) ||
  leadsWith low "issn:".data ||
  leadsWith low "doi:".data ||
  leadsWith low "copyright".data ||
  leadsWith low "journal".data ||
  leadsWith low "published".data ||
  leadsWith low "to cite".data ||
  leadsWith low "article views".data

/-- The per-candidate author filter: reasonable length, contains a space,
no URL or four-digit run, and mostly letters/spaces. -/
def authorTokenOk (a : List Char) : Bool :=
  (5 ≤ a.length && a.length ≤ 80) && a.contains ' ' &&
    !(containsTok (pyLower a) "http".data) && !has4Digits a &&
    ratioAlphaSpace a

/-- The main author scan (first sixty lines; only indices above five are
considered; stops at the first line that yields at least one valid
author token). -/
def authorScan : List (Nat × List Char) → List (List Char)
  | [] => []
  | (i, line) :: rest =>
    if authorSkipMatch line then authorScan rest
    else if line.length < 5 || line.length > 250 then authorScan rest
    else if i > 5 then
      let has_comma := line.contains ','
      let has_and := containsTok (pyLower line) " and ".data ||
        containsTok line " & ".data
      let has_multiple_caps := line.countP asciiIsUpper ≥ 3
      if (has_comma && has_and) || (has_comma && has_multiple_caps) then
        let author_text := replaceSub " & ".data ",".data
          (replaceSub " and ".data ",".data line)
        let authors := ((splitComma author_text).map pyStrip).filter
          authorTokenOk
        if !authors.isEmpty then authors else authorScan rest
      else authorScan rest
    else authorScan rest

/-- The fallback scan over `lines[5:40]`: the first line with two to eight
capitalized word-tokens and a high letter/space ratio. -/
def authorFallback : List (List Char) → Option (List Char)
  | [] => none
  | line :: rest =>
    let caps_words := (pySplit line).filter
      (fun w =>
        (match w with
         | c :: _ => asciiIsUpper c
         | [] => false) && w.length > 1)
    if 2 ≤ caps_words.length && caps_words.length ≤ 8 then
      if ratioAlphaSpace line then some line else authorFallback rest
    else authorFallback rest

/-- `PDFParser._extract_authors`. -/
def _extract_authors (text : List Char) : List (List Char) :=
  let lines := nonEmptyLines text
  let authors := authorScan ((lines.take 60).enum)
  match authors with
  | _ :: _ => authors
  | [] =>
    match authorFallback ((lines.drop 5).take 35) with
    | some line => [line]
    | none => ["Unknown Authors".data]

/-! ## `pdf_parser` — equation extraction -/

/-- Split at the first occurrence of `tok`: the part before it and the part
after it. -/
def splitFirstTok (tok : List Char) : List Char → Option (List Char × List Char)
  | [] => none
  | c :: r =>
    if leadsWith (c :: r) tok then some ([], (c :: r).drop tok.length)
    else (splitFirstTok tok r).map (fun p => (c :: p.1, p.2))

/-- Fuelled `re.findall(openTok (.*?) closeTok, text, re.DOTALL)`: lazy
capture up to the first closing token; if an opening token has no closing
token after it, no later occurrence can match either, so scanning stops.
Fuel `l.length` always suffices. -/
def findBetweenGo (openTok closeTok : List Char) :
    Nat → List Char → List (List Char)
  | 0, _ => []
  | fuel + 1, l =>
    match splitFirstTok openTok l with
    | none => []
    | some (_, rest) =>
      match splitFirstTok closeTok rest with
      | none => []
      | some (cap, rest2) => cap :: findBetweenGo openTok closeTok fuel rest2

def findBetween (openTok closeTok l : List Char) : List (List Char) :=
  findBetweenGo openTok closeTok l.length l

/-- `PDFParser._extract_equations`: the four markup patterns in source
order, matches stripped and dropped when empty, then `list(set(...))[:50]`.
Python's `set` iteration order is unspecified; it is modelled with
`List.dedup`, which the claims (no duplicates, size cap, membership) do
not distinguish. -/
def _extract_equations (text : List Char) : List (List Char) :=
  let m1 := findBetween "$$".data "$$".data text
  let m2 := findBetween "$".data "$".data text
  let m3 := findBetween ("\\begin".data ++ '{' :: "equation".data ++ ['}'])
    ("\\end".data ++ '{' :: "equation".data ++ ['}']) text
  let m4 := findBetween ("\\begin".data ++ '{' :: "align".data ++ ['}'])
    ("\\end".data ++ '{' :: "align".data ++ ['}']) text
  let equations :=
    ((m1.map pyStrip).filter (fun m => m ≠ [])) ++
    ((m2.map pyStrip).filter (fun m => m ≠ [])) ++
    ((m3.map pyStrip).filter (fun m => m ≠ [])) ++
    ((m4.map pyStrip).filter (fun m => m ≠ []))
  equations.dedup.take 50

/-! ## Claim theorems for the structurer -/

/-- The input of the title/author scoring example (claim C3): its non-empty
lines are `["Journal of Foo", "A Study of Widget Efficiency in Distributed
Systems", "J. Smith, A. Doe", "Abstract"]`. -/
def c3text : List Char :=
  ("Journal of Foo\nA Study of Widget Efficiency in Distributed Systems" ++
    "\nJ. Smith, A. Doe\nAbstract").data

/-- Claim C3 as stated is false: on the example input the author extractor
does not return `["J. Smith", "A. Doe"]` — the author line sits at index 2,
but the scan only applies its author heuristics at line indices above 5,
and the fallback scans `lines[5:40]`, which is empty here. -/
theorem extract_authors_example_cex :
    _extract_authors c3text ≠ ["J. Smith".data, "A. Doe".data] := by
  decide

/-- Claim C3 (amended): title extraction on the example yields the second
line (it survives the denylist, has ≥ 3 words and ≥ 2 capitalized words,
and out-scores the shorter author-line candidate), while author extraction
returns the sentinel `["Unknown Authors"]`. -/
theorem extract_title_authors_example :
    _extract_title none c3text
        = "A Study of Widget Efficiency in Distributed Systems".data ∧
    _extract_authors c3text = ["Unknown Authors".data] := by
  constructor
  · decide
  · decide

/-- Claim C5 as stated is false: the section opened by the header
`"1. Introduction"` on page 0 is emitted with `start_page = 1` (the page on
which it was closed), not 0 (the page on which its header line was
encountered). -/
theorem extract_sections_start_page_cex :
    _extract_sections
        ["1. Introduction\nalpha".data, "2. Method\nbeta".data]
      = [⟨"1. Introduction".data, "alpha".data, 1, 1, 1⟩,
         ⟨"2. Method".data, "beta".data, 1, 1, 1⟩] ∧
    (1 : Nat) ≠ 0 := by
  constructor
  · decide
  · decide

lemma procLine_start_eq_end (pg : Nat) (line : List Char) (st : SecState)
    (h : ∀ s ∈ st.secs, s.start_page = s.end_page) :
    ∀ s ∈ (procLine pg st line).secs, s.start_page = s.end_page := by
  intro s hs
  rw [procLine] at hs
  by_cases hh : isHeaderLine line
  · rw [if_pos hh] at hs
    cases hc : st.cur with
    | some t =>
      rw [hc] at hs
      simp only at hs
      rcases List.mem_append.mp hs with h1 | h1
      · exact h s h1
      · simp only [List.mem_singleton] at h1
        subst h1
        rfl
    | none =>
      rw [hc] at hs
      exact h s hs
  · rw [if_neg hh] at hs
    cases hc : st.cur with
    | some t => rw [hc] at hs; exact h s hs
    | none => rw [hc] at hs; exact h s hs

lemma foldl_lines_start_eq_end (pg : Nat) (ls : List (List Char)) :
    ∀ st : SecState, (∀ s ∈ st.secs, s.start_page = s.end_page) →
      ∀ s ∈ (ls.foldl (procLine pg) st).secs, s.start_page = s.end_page := by
  induction ls with
  | nil => intro st h; exact h
  | cons l ls ih =>
    intro st h
    exact ih (procLine pg st l) (procLine_start_eq_end pg l st h)

lemma foldl_pages_start_eq_end (ps : List (Nat × List Char)) :
    ∀ st : SecState, (∀ s ∈ st.secs, s.start_page = s.end_page) →
      ∀ s ∈ (ps.foldl
          (fun st p => (splitNl p.2).foldl (procLine p.1) st) st).secs,
        s.start_page = s.end_page := by
  induction ps with
  | nil => intro st h; exact h
  | cons p ps ih =>
    intro st h
    exact ih _ (foldl_lines_start_eq_end p.1 (splitNl p.2) st h)

/-- Claim C5 (amended): every section produced by `_extract_sections`
carries `start_page = end_page` — both record the page on which the
section was *closed* (the page of the next header, or the last page for
the final section), so in particular `end_page ≥ start_page` holds, but
`start_page` is not the page of the section's own header line. -/
theorem extract_sections_start_eq_end (pages : List (List Char)) :
    ∀ s ∈ _extract_sections pages, s.start_page = s.end_page := by
  intro s hs
  rw [_extract_sections, sfin] at hs
  rcases List.mem_append.mp hs with h1 | h1
  · exact foldl_pages_start_eq_end pages.enum ⟨none, [], []⟩
      (by intro s hs; simp at hs) s h1
  · rcases hc : (pages.enum.foldl
        (fun st p => (splitNl p.2).foldl (procLine p.1) st)
        ⟨none, [], []⟩).cur with _ | t
    · rw [hc] at h1; simp at h1
    · rw [hc] at h1
      simp only [List.mem_singleton] at h1
      subst h1
      rfl

theorem extract_sections_start_eq_end_witness :
    (⟨"1. Introduction".data, "alpha".data, 1, 1, 1⟩ : Section)
      ∈ _extract_sections
        ["1. Introduction\nalpha".data, "2. Method\nbeta".data] ∧
    (⟨"1. Introduction".data, "alpha".data, 1, 1, 1⟩ : Section).start_page
      = (⟨"1. Introduction".data, "alpha".data, 1, 1, 1⟩ : Section).end_page :=
  ⟨by decide,
    extract_sections_start_eq_end
      ["1. Introduction\nalpha".data, "2. Method\nbeta".data]
      ⟨"1. Introduction".data, "alpha".data, 1, 1, 1⟩ (by decide)⟩

/-! ## Claim C7: content grouping -/

/-- All lines of all pages, in order. -/
def pagesLines (pages : List (List Char)) : List (List Char) :=
  (pages.map splitNl).flatten

/-- All lines of all pages tagged with their page number. -/
def taggedLines (pages : List (List Char)) : List (Nat × List Char) :=
  (pages.enum.map (fun p => (splitNl p.2).map (fun l => (p.1, l)))).flatten

/-- One tagged line of the `_extract_sections` scan. -/
def stepTag (st : SecState) (pl : Nat × List Char) : SecState :=
  procLine pl.1 st pl.2

/-- Reference grouping, following the spec's wording: lines before the
first header belong to no section; on a header, open a section titled with
the stripped header line; every following non-header line belongs to the
most recently opened section; a section's content excludes its own header
line. -/
def specFrom (t : List Char) (acc : List (List Char)) :
    List (List Char) → List (List Char × List (List Char))
  | [] => [(t, acc)]
  | l :: ls =>
    if isHeaderLine l then (t, acc) :: specFrom (pyStrip l) [] ls
    else specFrom t (acc ++ [l]) ls

def specSections : List (List Char) → List (List Char × List (List Char))
  | [] => []
  | l :: ls =>
    if isHeaderLine l then specFrom (pyStrip l) [] ls else specSections ls

lemma foldl_nested_eq_tagged (L : List (Nat × List Char)) :
    ∀ st0 : SecState,
      L.foldl (fun st p => (splitNl p.2).foldl (procLine p.1) st) st0
        = ((L.map (fun p => (splitNl p.2).map (fun l => (p.1, l)))).flatten).foldl
            stepTag st0 := by
  induction L with
  | nil => intro st0; rfl
  | cons p L ih =>
    intro st0
    rw [List.foldl_cons, ih, List.map_cons, List.flatten_cons,
      List.foldl_append]
    congr 1
    rw [List.foldl_map]
    rfl

lemma sfin_foldl_some (ls : List (Nat × List Char)) :
    ∀ (t : List Char) (cont : List (List Char)) (acc : List Section)
      (lastPg : Nat),
      (sfin (ls.foldl stepTag ⟨some t, cont, acc⟩) lastPg).map
          (fun s => (s.title, s.content))
        = acc.map (fun s => (s.title, s.content))
          ++ (specFrom t cont (ls.map Prod.snd)).map
              (fun p => (p.1, joinNl p.2)) := by
  induction ls with
  | nil =>
    intro t cont acc lastPg
    simp [sfin, specFrom]
  | cons pl ls ih =>
    intro t cont acc lastPg
    obtain ⟨pg, l⟩ := pl
    rw [List.foldl_cons]
    by_cases hh : isHeaderLine l
    · have hstep : stepTag ⟨some t, cont, acc⟩ (pg, l)
          = ⟨some (pyStrip l), [],
              acc ++ [⟨t, joinNl cont, pg, pg, 1⟩]⟩ := by
        simp [stepTag, procLine, hh]
      rw [hstep, ih]
      simp [specFrom, hh]
    · have hstep : stepTag ⟨some t, cont, acc⟩ (pg, l)
          = ⟨some t, cont ++ [l], acc⟩ := by
        simp [stepTag, procLine, hh]
      rw [hstep, ih]
      simp [specFrom, hh]

lemma sfin_foldl_none (ls : List (Nat × List Char)) :
    ∀ (cont : List (List Char)) (acc : List Section) (lastPg : Nat),
      (sfin (ls.foldl stepTag ⟨none, cont, acc⟩) lastPg).map
          (fun s => (s.title, s.content))
        = acc.map (fun s => (s.title, s.content))
          ++ (specSections (ls.map Prod.snd)).map
              (fun p => (p.1, joinNl p.2)) := by
  induction ls with
  | nil =>
    intro cont acc lastPg
    simp [sfin, specSections]
  | cons pl ls ih =>
    intro cont acc lastPg
    obtain ⟨pg, l⟩ := pl
    rw [List.foldl_cons]
    by_cases hh : isHeaderLine l
    · have hstep : stepTag ⟨none, cont, acc⟩ (pg, l)
          = ⟨some (pyStrip l), [], acc⟩ := by
        simp [stepTag, procLine, hh]
      rw [hstep, sfin_foldl_some]
      simp [specSections, hh]
    · have hstep : stepTag ⟨none, cont, acc⟩ (pg, l)
          = ⟨none, cont, acc⟩ := by
        simp [stepTag, procLine, hh]
      rw [hstep, ih]
      simp [specSections, hh]

lemma taggedLines_snd (pages : List (List Char)) :
    (taggedLines pages).map Prod.snd = pagesLines pages := by
  rw [taggedLines, pagesLines]
  rw [List.map_flatten, List.map_map]
  congr 1
  have h1 : ((fun p : Nat × List Char =>
      (splitNl p.2).map (fun l => (p.1, l))) · |>.map Prod.snd)
      = fun p : Nat × List Char => splitNl p.2 := by
    funext p
    rw [List.map_map]
    simp
  calc pages.enum.map
        (List.map Prod.snd ∘ fun p => (splitNl p.2).map (fun l => (p.1, l)))
      = pages.enum.map (fun p => splitNl p.2) := by
        refine List.map_congr_left ?_
        intro p _
        simp [Function.comp, List.map_map]
    _ = (pages.enum.map Prod.snd).map splitNl := by
        rw [List.map_map]
        rfl
    _ = pages.map splitNl := by rw [List.enum_map_snd]

lemma specFrom_content_nonheader (ls : List (List Char)) :
    ∀ (t : List Char) (acc : List (List Char)),
      (∀ l ∈ acc, isHeaderLine l = false) →
      ∀ p ∈ specFrom t acc ls, ∀ l ∈ p.2, isHeaderLine l = false := by
  induction ls with
  | nil =>
    intro t acc hacc p hp
    simp only [specFrom, List.mem_singleton] at hp
    subst hp
    exact hacc
  | cons l ls ih =>
    intro t acc hacc p hp
    rw [specFrom] at hp
    by_cases hh : isHeaderLine l
    · rw [if_pos hh] at hp
      rcases List.mem_cons.mp hp with h1 | h1
      · subst h1; exact hacc
      · exact ih (pyStrip l) [] (by intro u hu; simp at hu) p h1
    · rw [if_neg hh] at hp
      refine ih t (acc ++ [l]) ?_ p hp
      intro u hu
      rcases List.mem_append.mp hu with h1 | h1
      · exact hacc u h1
      · simp only [List.mem_singleton] at h1
        subst h1
        simpa using hh

lemma specSections_content_nonheader (ls : List (List Char)) :
    ∀ p ∈ specSections ls, ∀ l ∈ p.2, isHeaderLine l = false := by
  induction ls with
  | nil => intro p hp; simp [specSections] at hp
  | cons l ls ih =>
    intro p hp
    rw [specSections] at hp
    by_cases hh : isHeaderLine l
    · rw [if_pos hh] at hp
      exact specFrom_content_nonheader ls (pyStrip l) []
        (by intro u hu; simp at hu) p hp
    · rw [if_neg hh] at hp
      exact ih p hp

/-- Claim C7: projected to `(title, content)`, `_extract_sections` computes
exactly the spec grouping — every non-header line after the first header
belongs to the content of the most recently opened section, sections are
emitted in order, lines before the first header belong to no section, and
no section's content contains a header line (in particular not its own
header). -/
theorem extract_sections_grouping (pages : List (List Char)) :
    ((_extract_sections pages).map (fun s => (s.title, s.content))
        = (specSections (pagesLines pages)).map
            (fun p => (p.1, joinNl p.2))) ∧
    ∀ p ∈ specSections (pagesLines pages), ∀ l ∈ p.2,
      isHeaderLine l = false := by
  constructor
  · rw [_extract_sections, foldl_nested_eq_tagged]
    have h := sfin_foldl_none (taggedLines pages) [] [] (pages.length - 1)
    rw [taggedLines_snd] at h
    simpa [taggedLines] using h
  · exact specSections_content_nonheader (pagesLines pages)

/-! ## Claim C8: cleaner totality and edge inputs -/

/-- A pure-whitespace input. -/
def wsOnlyText : List Char := "   ".data

/-- An input consisting only of markup commands. -/
def markupOnlyText : List Char := "\\alpha \\beta".data

/-- Claim C8: every cleaning transform is a total function (each is defined
as a total Lean function over `List Char`, so there is nothing to raise),
`clean_text` maps an absent (`none`) or empty input to the empty string for
every flag setting, and on the pure-whitespace and markup-only edge inputs
(assuming NFKC fixes them, as it does: they are ASCII) every transform
returns the listed definite value and the full `clean_text` pipeline
returns the empty string. -/
theorem clean_text_total_edge
    (nfkc : List Char → List Char) (la un nw ru fl : Bool)
    (hws : nfkc wsOnlyText = wsOnlyText)
    (hmk : nfkc markupOnlyText = markupOnlyText) :
    clean_text nfkc none la un nw ru fl = [] ∧
    clean_text nfkc (some []) la un nw ru fl = [] ∧
    clean_text nfkc (some wsOnlyText) true true true true true = [] ∧
    clean_text nfkc (some markupOnlyText) true true true true true = [] ∧
    (normalize_unicode nfkc wsOnlyText = wsOnlyText ∧
      remove_latex wsOnlyText = " ".data ∧
      remove_latex markupOnlyText = " ".data ∧
      fix_line_breaks wsOnlyText = wsOnlyText ∧
      remove_urls markupOnlyText = markupOnlyText ∧
      normalize_whitespace wsOnlyText = []) := by
  have h1 : normalize_unicode nfkc wsOnlyText = wsOnlyText := by
    rw [normalize_unicode, hws]
    decide
  have h2 : normalize_unicode nfkc markupOnlyText = markupOnlyText := by
    rw [normalize_unicode, hmk]
    decide
  refine ⟨rfl, by simp [clean_text], ?_, ?_, h1, by decide, by decide,
    by decide, by decide, by decide⟩
  · have hpipe : clean_text nfkc (some wsOnlyText) true true true true true
        = normalize_whitespace (remove_urls (fix_line_breaks
            (remove_latex (normalize_unicode nfkc wsOnlyText)))) := by
      simp [clean_text, wsOnlyText]
    rw [hpipe, h1]
    decide
  · have hpipe : clean_text nfkc (some markupOnlyText) true true true true
          true
        = normalize_whitespace (remove_urls (fix_line_breaks
            (remove_latex (normalize_unicode nfkc markupOnlyText)))) := by
      simp [clean_text, markupOnlyText]
    rw [hpipe, h2]
    decide

theorem clean_text_total_edge_witness :
    (id wsOnlyText = wsOnlyText ∧ id markupOnlyText = markupOnlyText) ∧
    (clean_text id none true true true true true = [] ∧
      clean_text id (some []) true true true true true = [] ∧
      clean_text id (some wsOnlyText) true true true true true = [] ∧
      clean_text id (some markupOnlyText) true true true true true = [] ∧
      (normalize_unicode id wsOnlyText = wsOnlyText ∧
        remove_latex wsOnlyText = " ".data ∧
        remove_latex markupOnlyText = " ".data ∧
        fix_line_breaks wsOnlyText = wsOnlyText ∧
        remove_urls markupOnlyText = markupOnlyText ∧
        normalize_whitespace wsOnlyText = [])) :=
  ⟨⟨rfl, rfl⟩, clean_text_total_edge id true true true true true rfl rfl⟩

/-! ## Claim C9: equation extraction -/

/-- A text containing both `"$E=mc^2$"` and `"$$F=ma$$"`. -/
def c9text : List Char :=
  "Einstein wrote $E=mc^2$ and also $$F=ma$$ here".data

/-- Claim C9: equation extraction always yields a duplicate-free list of at
most 50 entries, and on a text containing both `"$E=mc^2$"` and
`"$$F=ma$$"` the result contains both `"E=mc^2"` and `"F=ma"`. -/
theorem extract_equations_claims :
    (∀ text : List Char, (_extract_equations text).Nodup ∧
      (_extract_equations text).length ≤ 50) ∧
    ("E=mc^2".data ∈ _extract_equations c9text ∧
      "F=ma".data ∈ _extract_equations c9text) := by
  refine ⟨fun text => ⟨?_, ?_⟩, by decide, by decide⟩
  · exact List.Nodup.sublist (List.take_sublist 50 _) (List.nodup_dedup _)
  · exact List.length_take_le 50 _

end ScholarLens
